import Mathlib

/-!
Verification of the job-queue core of the YouTube/TikTok downloader service.

The Python source is shallowly embedded: dictionaries holding job records
become functions from field names to optional values, the in-memory backend
becomes a functional map from job ids to records, and timestamps become
explicit integer parameters (`time.time()` is passed in as `now`).
-/

/-- Scalar values stored in a job record (Python `None`, `str`, numbers). -/
inductive Prim where
  | null
  | str (s : String)
  | int (n : Int)
  deriving DecidableEq, Repr

/-- Values one nesting level down: either a scalar or a flat dict of scalars.
The program stores at most this depth below a record field (the `result`
object contains the `meta` dict, whose values are scalars). -/
inductive Val1 where
  | prim (p : Prim)
  | dict (entries : List (String × Prim))
  deriving DecidableEq, Repr

/-- A value stored under a top-level field of a job record. -/
inductive Val where
  | prim (p : Prim)
  | dict (entries : List (String × Val1))
  deriving DecidableEq, Repr

/-- A job record: a Python dict from field name to value. -/
def Rec := String → Option Val

/-- Write one key of a record (Python `d[k] = v`). -/
def Rec.set (r : Rec) (k : String) (v : Val) : Rec :=
  fun q => if q = k then some v else r q

/-- Python `current.update(fields)`: later bindings for the same key win. -/
def mergeFields (r : Rec) (fields : List (String × Val)) : Rec :=
  fields.foldl (fun acc kv => acc.set kv.1 kv.2) r

/-- Python `current.setdefault(k, v)`. -/
def Rec.setdefault (r : Rec) (k : String) (v : Val) : Rec :=
  match r k with
  | some _ => r
  | none => r.set k v

/-- The empty dict `{}`. -/
def emptyRec : Rec := fun _ => none

/-- Last binding of key `k` in an update list (the one Python keeps). -/
def lastVal : List (String × Val) → String → Option Val
  | [], _ => none
  | kv :: rest, k =>
      match lastVal rest k with
      | some v => some v
      | none => if kv.1 = k then some kv.2 else none

/-- The in-memory backend of `jobs_memory.py`: the `jobs` dict plus the
FIFO handoff queue of job ids. -/
structure MemoryBackend where
  jobs : String → Option Rec
  queue : List String

/-- The initial record written by `MemoryBackend.enqueue` (and, with the same
fields, by `RQBackend.enqueue`). -/
def initialRecord (jobId : String) (payload : Val) (now : Int) : Rec :=
  mergeFields emptyRec
    [("job_id", .prim (.str jobId)), ("status", .prim (.str "queued")),
     ("progress", .prim (.int 0)), ("message", .prim (.str "В очереди")),
     ("result", .prim .null), ("error", .prim .null), ("reason", .prim .null),
     ("file_path", .prim .null), ("filename", .prim .null),
     ("mimetype", .prim .null), ("meta", .prim .null), ("payload", payload),
     ("created_at", .prim (.int now)), ("updated_at", .prim (.int now))]

/-- `MemoryBackend.enqueue`: write the initial record, push the id onto the
queue.  The fresh uuid is passed in as `jobId`. -/
def MemoryBackend.enqueue (b : MemoryBackend) (jobId : String) (payload : Val)
    (now : Int) : MemoryBackend :=
  { jobs := fun k => if k = jobId then some (initialRecord jobId payload now)
                     else b.jobs k,
    queue := b.queue ++ [jobId] }

/-- `MemoryBackend.get`: `dict(job) if job else None`.  In this functional
model the shallow copy is the value itself; aliasing of nested dicts is
studied separately in the pointer model below. -/
def MemoryBackend.get (b : MemoryBackend) (jobId : String) : Option Rec :=
  b.jobs jobId

/-- `MemoryBackend.set`: `self.jobs[job_id] = dict(data)`. -/
def MemoryBackend.set (b : MemoryBackend) (jobId : String) (data : Rec) :
    MemoryBackend :=
  { b with jobs := fun k => if k = jobId then some data else b.jobs k }

/-- `jobs.create_job`: raises `RuntimeError` when no backend is configured,
otherwise delegates to `enqueue`. -/
def create_job (backend : Option MemoryBackend) (jobId : String)
    (payload : Val) (now : Int) : Except String (String × MemoryBackend) :=
  match backend with
  | none => .error "Job backend is not configured."
  | some b => .ok (jobId, b.enqueue jobId payload now)

/-- `jobs.job_status`: raises when unconfigured, else `get` (returning a
top-level copy of the record, or `None` for an unknown id). -/
def job_status (backend : Option MemoryBackend) (jobId : String) :
    Except String (Option Rec) :=
  match backend with
  | none => .error "Job backend is not configured."
  | some b => .ok (b.get jobId)

/-- The record transformation inside `jobs.job_update`:
`current.setdefault("job_id", job_id); current.update(fields);
current["updated_at"] = time.time()`. -/
def mergeUpdate (current : Rec) (jobId : String)
    (fields : List (String × Val)) (now : Int) : Rec :=
  (mergeFields (current.setdefault "job_id" (.prim (.str jobId))) fields).set
    "updated_at" (.prim (.int now))

/-- `jobs.job_update`: raises when unconfigured, else read-modify-write merge
of `fields` over the existing record (empty dict when absent). -/
def job_update (backend : Option MemoryBackend) (jobId : String)
    (fields : List (String × Val)) (now : Int) :
    Except String (Rec × MemoryBackend) :=
  match backend with
  | none => .error "Job backend is not configured."
  | some b =>
      let current := (b.get jobId).getD emptyRec
      let merged := mergeUpdate current jobId fields now
      .ok (merged, b.set jobId merged)

/-- The Redis key-value store of `jobs_rq.py`, seen through the JSON
round-trip of `RQBackend.get`/`set` (which therefore hands back deep
copies, so a functional map is a faithful model). -/
def RQStore := String → Option Rec

/-- `RQBackend.set` (the TTL refresh does not change the stored value). -/
def RQStore.set (st : RQStore) (jobId : String) (data : Rec) : RQStore :=
  fun k => if k = jobId then some data else st k

/-- The per-job `update` callback defined inside `worker.run_job` for RQ
workers: `current = backend.get(job_id) or {}; current.update(fields);
backend.set(job_id, current)`.  Note: no `updated_at` stamp, no
`setdefault("job_id", ...)` — it does not go through `job_update`. -/
def rqWorkerUpd (st : RQStore) (jobId : String)
    (fields : List (String × Val)) : RQStore :=
  let current := (st jobId).getD emptyRec
  let merged := mergeFields current fields
  st.set jobId merged

-- ### Basic lookup lemmas about the merge operations

theorem mergeFields_lookup (u : List (String × Val)) (r : Rec) (k : String) :
    mergeFields r u k = (lastVal u k).elim (r k) some := by
  induction u generalizing r with
  | nil => rfl
  | cons kv rest ih =>
      show mergeFields (r.set kv.1 kv.2) rest k = _
      rw [ih]
      show (lastVal rest k).elim (Rec.set r kv.1 kv.2 k) some = _
      cases h : lastVal rest k with
      | some v => simp [lastVal, h]
      | none =>
          simp only [lastVal, h, Option.elim]
          by_cases hk : kv.1 = k
          · subst hk
            simp [Rec.set]
          · have hk2 : ¬ k = kv.1 := fun hh => hk hh.symm
            simp [Rec.set, hk, hk2]

theorem setdefault_lookup_ne (r : Rec) (k k2 : String) (v : Val)
    (h : k2 ≠ k) : (r.setdefault k v) k2 = r k2 := by
  unfold Rec.setdefault
  cases r k with
  | some w => rfl
  | none => simp [Rec.set, h]

theorem mergeUpdate_lookup (current : Rec) (jobId : String)
    (u : List (String × Val)) (now : Int) (k : String)
    (h1 : k ≠ "updated_at") (h2 : k ≠ "job_id") :
    mergeUpdate current jobId u now k = (lastVal u k).elim (current k) some := by
  unfold mergeUpdate
  rw [show (Rec.set (mergeFields (current.setdefault "job_id"
        (.prim (.str jobId))) u) "updated_at" (.prim (.int now)) k
      = mergeFields (current.setdefault "job_id" (.prim (.str jobId))) u k)
    from by simp [Rec.set, h1]]
  rw [mergeFields_lookup]
  rw [setdefault_lookup_ne _ _ _ _ h2]

theorem mergeUpdate_stamps (current : Rec) (jobId : String)
    (u : List (String × Val)) (now : Int) :
    mergeUpdate current jobId u now "updated_at" = some (.prim (.int now)) := by
  unfold mergeUpdate
  simp [Rec.set]

theorem memSet_get (b : MemoryBackend) (jobId : String) (data : Rec) :
    (b.set jobId data).get jobId = some data := by
  simp [MemoryBackend.set, MemoryBackend.get]

/-- C1.  A `job_update` that sets one set of fields never erases a field
written earlier to the same job: `job_update` is a read-modify-write merge
over the existing record.  First conjunct: any field not named in `fields`
(and not the automatically restamped `updated_at` / auto-filled `job_id`)
keeps its prior value, and the merged record is what the store then holds.
Second conjunct: the round trip `update {meta: X}` then `update
{progress: 50}` then read back yields both `meta == X` and
`progress == 50`. -/
theorem C1_merge_update_never_erases :
    (∀ (b : MemoryBackend) (id : String) (fields : List (String × Val))
        (now : Int) (k : String) (r0 : Rec),
        b.get id = some r0 → lastVal fields k = none →
        k ≠ "updated_at" → k ≠ "job_id" →
        ∀ r1 b1, job_update (some b) id fields now = .ok (r1, b1) →
          b1.get id = some r1 ∧ r1 k = r0 k)
  ∧ (∀ (b : MemoryBackend) (id : String) (X : Val) (t1 t2 : Int)
        (r1 : Rec) (b1 : MemoryBackend) (r2 : Rec) (b2 : MemoryBackend),
        job_update (some b) id [("meta", X)] t1 = .ok (r1, b1) →
        job_update (some b1) id [("progress", .prim (.int 50))] t2
          = .ok (r2, b2) →
        b2.get id = some r2 ∧ r2 "meta" = some X
          ∧ r2 "progress" = some (.prim (.int 50))) := by
  constructor
  · intro b id fields now k r0 hget hlast hk1 hk2 r1 b1 hupd
    have hr1 : r1 = mergeUpdate r0 id fields now ∧ b1 = b.set id r1 := by
      simp only [job_update, hget, Option.getD] at hupd
      cases hupd
      exact ⟨rfl, rfl⟩
    obtain ⟨h1, h2⟩ := hr1
    refine ⟨h2 ▸ memSet_get b id r1, ?_⟩
    rw [h1, mergeUpdate_lookup _ _ _ _ _ hk1 hk2, hlast]
    rfl
  · intro b id X t1 t2 r1 b1 r2 b2 h1 h2
    have e1 : r1 = mergeUpdate ((b.get id).getD emptyRec) id [("meta", X)] t1
        ∧ b1 = b.set id r1 := by
      simp only [job_update] at h1
      cases h1
      exact ⟨rfl, rfl⟩
    have e2 : r2 = mergeUpdate ((b1.get id).getD emptyRec) id
        [("progress", .prim (.int 50))] t2 ∧ b2 = b1.set id r2 := by
      simp only [job_update] at h2
      cases h2
      exact ⟨rfl, rfl⟩
    obtain ⟨e1r, e1b⟩ := e1
    obtain ⟨e2r, e2b⟩ := e2
    have hb1get : b1.get id = some r1 := e1b ▸ memSet_get b id r1
    refine ⟨e2b ▸ memSet_get b1 id r2, ?_, ?_⟩
    · rw [e2r, hb1get]
      rw [show (some r1).getD emptyRec = r1 from rfl]
      rw [mergeUpdate_lookup _ _ _ _ _ (by decide) (by decide)]
      rw [show lastVal [("progress", Val.prim (.int 50))] "meta" = none from rfl]
      rw [show (Option.elim none (r1 "meta") some : Option Val) = r1 "meta"
        from rfl]
      rw [e1r, mergeUpdate_lookup _ _ _ _ _ (by decide) (by decide)]
      rfl
    · rw [e2r, hb1get]
      rw [show (some r1).getD emptyRec = r1 from rfl]
      rw [mergeUpdate_lookup _ _ _ _ _ (by decide) (by decide)]
      rfl

/-- An empty in-memory backend. -/
def memEmpty : MemoryBackend := ⟨fun _ => none, []⟩

/-- A concrete payload `{url, quality, format}` used by witnesses. -/
def payload0 : Val :=
  .dict [("url", .prim (.str "https://www.youtube.com/watch?v=abc")),
         ("quality", .prim (.str "720p")), ("format", .prim (.str "mp4"))]

/-- A backend holding one freshly enqueued job `"j"`. -/
def memB0 : MemoryBackend := memEmpty.enqueue "j" payload0 0

/-- The record after `job_update(j, meta=X)` at time 1 over `memB0`. -/
def c1r1 : Rec :=
  mergeUpdate (initialRecord "j" payload0 0) "j"
    [("meta", .prim (.str "X"))] 1

/-- The record after the further `job_update(j, progress=50)` at time 2. -/
def c1r2 : Rec :=
  mergeUpdate c1r1 "j" [("progress", .prim (.int 50))] 2

theorem C1_merge_update_never_erases_witness :
    ((memB0.set "j" c1r1).set "j" c1r2).get "j" = some c1r2
      ∧ c1r2 "meta" = some (.prim (.str "X"))
      ∧ c1r2 "progress" = some (.prim (.int 50)) :=
  C1_merge_update_never_erases.2 memB0 "j" (.prim (.str "X")) 1 2
    c1r1 (memB0.set "j" c1r1) c1r2 ((memB0.set "j" c1r1).set "j" c1r2)
    rfl rfl

/-- C9.  With no backend configured, `create_job`, `job_status` and
`job_update` all fail fast with the configuration error (they raise before
reading or writing any job state, so no state is produced); with a backend
configured, `job_status` on an id that was never created returns `None`
(absent), never an error. -/
theorem C9_unconfigured_fails_fast :
    create_job none "j" payload0 0 = .error "Job backend is not configured."
  ∧ job_status none "j" = .error "Job backend is not configured."
  ∧ job_update none "j" [] 0 = .error "Job backend is not configured."
  ∧ (∀ (b : MemoryBackend) (id : String), b.jobs id = none →
      job_status (some b) id = .ok none) := by
  refine ⟨rfl, rfl, rfl, ?_⟩
  intro b id h
  simp [job_status, MemoryBackend.get, h]

theorem C9_unconfigured_fails_fast_witness :
    job_status (some memEmpty) "nope" = .ok none :=
  C9_unconfigured_fails_fast.2.2.2 memEmpty "nope" rfl

/-- An RQ store holding one job `"j"` whose `updated_at` is 0. -/
def rqSt0 : RQStore := fun id =>
  if id = "j" then some (initialRecord "j" payload0 0) else none

/-- C7 counterexample.  A write issued by the RQ worker's per-job `update`
callback at (wall-clock) time 5 leaves the stored `updated_at` at its old
value 0, which is not at least as recent as the write time: the callback
merges fields via `backend.set` without restamping `updated_at`. -/
theorem C7_rq_callback_does_not_stamp :
    ((rqWorkerUpd rqSt0 "j" [("progress", .prim (.int 50))]) "j").map
        (fun r => r "updated_at") = some (some (.prim (.int 0)))
      ∧ ¬ ((5 : Int) ≤ 0) := by
  constructor
  · rfl
  · decide

/-- C7 (amended).  Writes that go through the lifecycle manager's
`job_update` always stamp `updated_at` with the time of the write (and the
store then holds the stamped record); but the RQ worker's per-job `update`
callback writes through `backend.set` without restamping, so `updated_at`
keeps its prior value whenever the written fields do not themselves contain
it. -/
theorem C7_updated_at_stamping :
    (∀ (b : MemoryBackend) (id : String) (fields : List (String × Val))
        (now : Int) (r1 : Rec) (b1 : MemoryBackend),
        job_update (some b) id fields now = .ok (r1, b1) →
        r1 "updated_at" = some (.prim (.int now)) ∧ b1.get id = some r1)
  ∧ (∀ (st : RQStore) (id : String) (fields : List (String × Val)) (r0 : Rec),
        st id = some r0 → lastVal fields "updated_at" = none →
        (rqWorkerUpd st id fields) id = some (mergeFields r0 fields)
          ∧ (mergeFields r0 fields) "updated_at" = r0 "updated_at") := by
  constructor
  · intro b id fields now r1 b1 h
    have e : r1 = mergeUpdate ((b.get id).getD emptyRec) id fields now
        ∧ b1 = b.set id r1 := by
      simp only [job_update] at h
      cases h
      exact ⟨rfl, rfl⟩
    obtain ⟨er, eb⟩ := e
    exact ⟨er ▸ mergeUpdate_stamps _ _ _ _, eb ▸ memSet_get b id r1⟩
  · intro st id fields r0 h0 hlast
    constructor
    · simp [rqWorkerUpd, RQStore.set, h0]
    · rw [mergeFields_lookup, hlast]
      rfl

theorem C7_updated_at_stamping_witness :
    (rqWorkerUpd rqSt0 "j" [("progress", .prim (.int 50))]) "j"
        = some (mergeFields (initialRecord "j" payload0 0)
            [("progress", .prim (.int 50))])
      ∧ (mergeFields (initialRecord "j" payload0 0)
            [("progress", .prim (.int 50))]) "updated_at"
        = (initialRecord "j" payload0 0) "updated_at" :=
  C7_updated_at_stamping.2 rqSt0 "j" [("progress", .prim (.int 50))]
    (initialRecord "j" payload0 0) rfl rfl

-- ## Rate limiter (`ratelimit.py`)

/-- Default window (seconds) from `ratelimit.py`. -/
def WINDOW_SECONDS : Int := 600

/-- Default limit from `ratelimit.py`. -/
def LIMIT : Nat := 10

/-- The drop loop of `allow`:
`while queue and now - queue[0] > window: queue.pop(0)`. -/
def dropOld (now window : Int) (q : List Int) : List Int :=
  q.dropWhile (fun t => decide (window < now - t))

/-- The body of `ratelimit.allow` acting on one identity's event queue:
drop old events from the front, reject if at least `limit` remain,
else record `now` at the back. -/
def allowQ (limit : Nat) (window : Int) (q : List Int) (now : Int) :
    Bool × List Int :=
  let q2 := dropOld now window q
  if limit ≤ q2.length then (false, q2) else (true, q2 ++ [now])

/-- `ratelimit.allow` over the whole `_hits` table (the queue is mutated in
place in Python, so the dropped queue is stored even on rejection). -/
def rlAllow (hits : String → List Int) (identifier : String) (limit : Nat)
    (window now : Int) : Bool × (String → List Int) :=
  let res := allowQ limit window (hits identifier) now
  (res.1, fun k => if k = identifier then res.2 else hits k)

/-- Process a sequence of call times for one identity from queue `q`,
accumulating the admitted call times in `g`. -/
def runAllow (limit : Nat) (window : Int) :
    List Int → List Int → List Int → List Int × List Int
  | q, g, [] => (q, g)
  | q, g, now :: calls =>
      let res := allowQ limit window q now
      if res.1 then runAllow limit window res.2 (g ++ [now]) calls
      else runAllow limit window res.2 g calls

/-- Test for an event younger than (or exactly as old as) the window. -/
def rlRecent (window now : Int) : Int → Bool :=
  fun t => decide (now - t ≤ window)

/-- Membership test for the sliding interval `[a, a + window]`. -/
def rlInterval (window a : Int) : Int → Bool :=
  fun t => decide (a ≤ t) && decide (t ≤ a + window)

theorem dropOld_sorted (now window : Int) (q : List Int)
    (hq : List.Sorted (· ≤ ·) q) :
    dropOld now window q = q.filter (rlRecent window now) := by
  induction q with
  | nil => rfl
  | cons t rest ih =>
      have hall := (List.sorted_cons.mp hq).1
      have hrest := (List.sorted_cons.mp hq).2
      by_cases h : window < now - t
      · have e1 : dropOld now window (t :: rest) = dropOld now window rest := by
          simp [dropOld, List.dropWhile_cons, h]
        have e2 : (t :: rest).filter (rlRecent window now)
            = rest.filter (rlRecent window now) := by
          simp only [List.filter_cons]
          have : rlRecent window now t = false := by
            simp only [rlRecent, decide_eq_false_iff_not]
            omega
          simp [this]
        rw [e1, e2, ih hrest]
      · have e1 : dropOld now window (t :: rest) = t :: rest := by
          simp [dropOld, List.dropWhile_cons, h]
        have e2 : (t :: rest).filter (rlRecent window now) = t :: rest := by
          rw [List.filter_eq_self]
          intro a ha
          have hta : t ≤ a ∨ a = t := by
            rcases List.mem_cons.mp ha with h1 | h1
            · exact Or.inr h1
            · exact Or.inl (hall a h1)
          simp only [rlRecent, decide_eq_true_eq]
          rcases hta with h1 | h1
          · omega
          · omega
        rw [e1, e2]

theorem dropOld_of_filtered (window : Int) (g : List Int) (B now : Int)
    (hg : List.Sorted (· ≤ ·) g) (hBnow : B ≤ now) :
    dropOld now window (g.filter (rlRecent window B))
      = g.filter (rlRecent window now) := by
  rw [dropOld_sorted _ _ _ (hg.filter _), List.filter_filter]
  apply List.filter_congr
  intro t _
  cases h : rlRecent window now t with
  | true =>
      have h2 : rlRecent window B t = true := by
        simp only [rlRecent, decide_eq_true_eq] at h ⊢
        omega
      simp [h2]
  | false => simp

theorem runAllow_inv (limit : Nat) (window : Int) (hw : 0 ≤ window) :
    ∀ (calls : List Int), ∀ (g : List Int) (B : Int),
      List.Sorted (· ≤ ·) g → (∀ t ∈ g, t ≤ B) →
      List.Sorted (· ≤ ·) calls → (∀ c ∈ calls, B ≤ c) →
      (∀ a : Int, ((g.filter (rlInterval window a)).length ≤ limit)) →
      List.Sorted (· ≤ ·)
          (runAllow limit window (g.filter (rlRecent window B)) g calls).2
        ∧ (∀ t ∈ (runAllow limit window (g.filter (rlRecent window B)) g
              calls).2, t ≤ calls.getLastD B)
        ∧ (runAllow limit window (g.filter (rlRecent window B)) g calls).1
            = (runAllow limit window (g.filter (rlRecent window B)) g
                calls).2.filter (rlRecent window (calls.getLastD B))
        ∧ (∀ a : Int, (((runAllow limit window (g.filter (rlRecent window B))
              g calls).2.filter (rlInterval window a)).length ≤ limit))
        ∧ (calls.getLastD B = B ∨ calls.getLastD B ∈ calls) := by
  intro calls
  induction calls with
  | nil =>
      intro g B hg hgB _ _ hbound
      exact ⟨hg, hgB, rfl, hbound, Or.inl rfl⟩
  | cons now rest ih =>
      intro g B hg hgB hc hcB hbound
      have hBnow : B ≤ now := hcB now (List.mem_cons_self _ _)
      have hrest : List.Sorted (· ≤ ·) rest := (List.sorted_cons.mp hc).2
      have hrestge : ∀ c ∈ rest, now ≤ c := (List.sorted_cons.mp hc).1
      have hD : dropOld now window (g.filter (rlRecent window B))
          = g.filter (rlRecent window now) := dropOld_of_filtered _ _ _ _ hg hBnow
      have hgnow : ∀ t ∈ g, t ≤ now := fun t ht => le_trans (hgB t ht) hBnow
      by_cases hlim : limit ≤ (g.filter (rlRecent window now)).length
      · -- call rejected: queue becomes the dropped queue, grants unchanged
        have estep : runAllow limit window (g.filter (rlRecent window B)) g
            (now :: rest)
            = runAllow limit window (g.filter (rlRecent window now)) g rest := by
          simp [runAllow, allowQ, hD, hlim]
        rw [estep, List.getLastD_cons]
        have := ih g now hg hgnow hrest hrestge hbound
        refine ⟨this.1, this.2.1, this.2.2.1, this.2.2.2.1, ?_⟩
        rcases this.2.2.2.2 with h | h
        · rw [h]
          exact Or.inr (List.mem_cons_self _ _)
        · exact Or.inr (List.mem_cons_of_mem _ h)
      · -- call granted: `now` is appended to the queue and to the grants
        have estep : runAllow limit window (g.filter (rlRecent window B)) g
            (now :: rest)
            = runAllow limit window (g.filter (rlRecent window now) ++ [now])
                (g ++ [now]) rest := by
          simp [runAllow, allowQ, hD, hlim]
        have hq2 : (g ++ [now]).filter (rlRecent window now)
            = g.filter (rlRecent window now) ++ [now] := by
          rw [List.filter_append]
          have : rlRecent window now now = true := by
            simp only [rlRecent, decide_eq_true_eq]
            omega
          simp [this]
        have hsort2 : List.Sorted (· ≤ ·) (g ++ [now]) := by
          rw [List.Sorted, List.pairwise_append]
          refine ⟨hg, List.pairwise_singleton _ _, ?_⟩
          intro a ha b hb
          rw [List.mem_singleton.mp hb]
          exact hgnow a ha
        -- bound each sliding interval for the extended grant list
        have hbound2 : ∀ a : Int,
            (((g ++ [now]).filter (rlInterval window a)).length ≤ limit) := by
          intro a
          rw [List.filter_append, List.length_append]
          by_cases hin : rlInterval window a now = true
          · have hsub : g.filter (rlInterval window a)
                = (g.filter (rlRecent window now)).filter
                    (rlInterval window a) := by
              rw [List.filter_filter]
              apply List.filter_congr
              intro t _
              cases h : rlInterval window a t with
              | true =>
                  have : rlRecent window now t = true := by
                    simp only [rlInterval, Bool.and_eq_true,
                      decide_eq_true_eq] at h hin
                    simp only [rlRecent, decide_eq_true_eq]
                    omega
                  simp [this]
              | false => simp
            have hlen : (g.filter (rlInterval window a)).length
                ≤ (g.filter (rlRecent window now)).length := by
              rw [hsub]
              exact (List.filter_sublist _).length_le
            have hfl : List.filter (rlInterval window a) [now] = [now] := by
              simp [hin]
            rw [hfl]
            simp only [List.length_singleton]
            omega
          · simp only [Bool.not_eq_true] at hin
            have hfl : List.filter (rlInterval window a) [now] = [] := by
              simp [hin]
            rw [hfl]
            simp only [List.length_nil]
            have := hbound a
            omega
        have hle2 : ∀ t ∈ g ++ [now], t ≤ now := by
          intro t ht
          rcases List.mem_append.mp ht with h | h
          · exact hgnow t h
          · rw [List.mem_singleton.mp h]
        have := ih (g ++ [now]) now hsort2 hle2 hrest hrestge hbound2
        rw [estep, List.getLastD_cons]
        rw [hq2] at this
        refine ⟨this.1, this.2.1, this.2.2.1, this.2.2.2.1, ?_⟩
        rcases this.2.2.2.2 with h | h
        · rw [h]
          exact Or.inr (List.mem_cons_self _ _)
        · exact Or.inr (List.mem_cons_of_mem _ h)

theorem sorted_headD_le (l : List Int) (h : List.Sorted (· ≤ ·) l) (d : Int) :
    ∀ c ∈ l, l.headD d ≤ c := by
  cases l with
  | nil => intro c hc; cases hc
  | cons a t =>
      intro c hc
      rcases List.mem_cons.mp hc with h1 | h1
      · rw [h1, List.headD_cons]
      · rw [List.headD_cons]
        exact (List.sorted_cons.mp h).1 c h1

/-- C5.  The rate limiter over a sliding window.  First conjunct: one call
is permitted exactly when, after discarding that identity's events older
than the window, fewer than `limit` events remain, recording the new event
on success (and leaving other identities untouched).  Second conjunct:
processing any nondecreasing sequence of call times from an empty state
admits at most `limit` calls inside any sliding interval
`[a, a + window]` — so a `(limit+1)`-th admission within a window cannot
happen.  Third conjunct: the next call is granted exactly when fewer than
`limit` of the previously admitted events are still within the window —
so once the oldest admission has aged out of the window, one more call is
allowed, and while `limit` admissions are still in the window the next
call is rejected. -/
theorem C5_rate_limiter_sliding_window :
    (∀ (hits : String → List Int) (id : String) (limit : Nat)
        (window now : Int),
        ((rlAllow hits id limit window now).1 = true
           ↔ (dropOld now window (hits id)).length < limit)
        ∧ (rlAllow hits id limit window now).2 id
            = (if (dropOld now window (hits id)).length < limit
               then dropOld now window (hits id) ++ [now]
               else dropOld now window (hits id))
        ∧ (∀ k, k ≠ id → (rlAllow hits id limit window now).2 k = hits k))
  ∧ (∀ (limit : Nat) (window : Int) (calls : List Int), 0 ≤ window →
        List.Sorted (· ≤ ·) calls → ∀ a : Int,
        ((runAllow limit window [] [] calls).2.filter
            (rlInterval window a)).length ≤ limit)
  ∧ (∀ (limit : Nat) (window : Int) (calls : List Int) (now : Int),
        0 ≤ window → List.Sorted (· ≤ ·) (calls ++ [now]) →
        ((allowQ limit window (runAllow limit window [] [] calls).1 now).1
            = true
          ↔ ((runAllow limit window [] [] calls).2.filter
              (rlRecent window now)).length < limit)) := by
  refine ⟨?_, ?_, ?_⟩
  · intro hits id limit window now
    by_cases hl : limit ≤ (dropOld now window (hits id)).length
    · refine ⟨?_, ?_, ?_⟩
      · constructor
        · intro h
          simp [rlAllow, allowQ, hl] at h
        · intro h
          omega
      · rw [if_neg (by omega)]
        simp [rlAllow, allowQ, hl]
      · intro k hk
        simp [rlAllow, allowQ, hl, hk]
    · refine ⟨?_, ?_, ?_⟩
      · constructor
        · intro _
          omega
        · intro _
          simp [rlAllow, allowQ, hl]
      · rw [if_pos (by omega)]
        simp [rlAllow, allowQ, hl]
      · intro k hk
        simp [rlAllow, allowQ, hl, hk]
  · intro limit window calls hw hsorted a
    have hhead : ∀ c ∈ calls, calls.headD 0 ≤ c :=
      sorted_headD_le calls hsorted 0
    have inv := runAllow_inv limit window hw calls [] (calls.headD 0)
      (by simp) (by simp) hsorted hhead (by simp)
    rw [show List.filter (rlRecent window (calls.headD 0)) ([] : List Int)
      = [] from rfl] at inv
    exact inv.2.2.2.1 a
  · intro limit window calls now hw hsorted
    obtain ⟨hcs, _, hcross⟩ := List.pairwise_append.mp hsorted
    have hlenow : ∀ c ∈ calls, c ≤ now := fun c hc =>
      hcross c hc now (List.mem_singleton.mpr rfl)
    have hBle : ∀ c ∈ calls, calls.headD now ≤ c :=
      sorted_headD_le calls hcs now
    have hBnow : calls.headD now ≤ now := by
      cases calls with
      | nil => simp
      | cons c t =>
          rw [List.headD_cons]
          exact hlenow c (List.mem_cons_self _ _)
    have inv := runAllow_inv limit window hw calls [] (calls.headD now)
      (by simp) (by simp) hcs hBle (by simp)
    rw [show List.filter (rlRecent window (calls.headD now)) ([] : List Int)
      = [] from rfl] at inv
    obtain ⟨hs, _, hq, _, hlastmem⟩ := inv
    have hB2 : calls.getLastD (calls.headD now) ≤ now := by
      rcases hlastmem with h | h
      · rw [h]
        exact hBnow
      · exact hlenow _ h
    have hdrop : dropOld now window (runAllow limit window [] [] calls).1
        = (runAllow limit window [] [] calls).2.filter
            (rlRecent window now) := by
      rw [hq]
      exact dropOld_of_filtered window _ _ now hs hB2
    by_cases hl : limit ≤ ((runAllow limit window [] [] calls).2.filter
        (rlRecent window now)).length
    · constructor
      · intro h
        simp [allowQ, hdrop, hl] at h
      · intro h
        omega
    · constructor
      · intro _
        omega
      · intro _
        simp [allowQ, hdrop, hl]

theorem C5_rate_limiter_sliding_window_witness :
    (((runAllow 2 10 [] [] [0, 1, 5]).2.filter (rlInterval 10 0)).length ≤ 2)
    ∧ ((allowQ 2 10 (runAllow 2 10 [] [] [0, 1, 5]).1 6).1 = true
        ↔ (((runAllow 2 10 [] [] [0, 1, 5]).2.filter
            (rlRecent 10 6)).length < 2)) :=
  ⟨C5_rate_limiter_sliding_window.2.1 2 10 [0, 1, 5] (by decide) (by decide) 0,
   C5_rate_limiter_sliding_window.2.2 2 10 [0, 1, 5] 6 (by decide) (by decide)⟩

-- ## Processing pipeline (`worker.process_job_async`)

/-- `worker.ALLOWED_FORMATS`. -/
def ALLOWED_FORMATS : List String :=
  ["mp4", "webm", "mkv", "mp3", "m4a", "ogg", "source"]

/-- `paths.guess_mimetype`. -/
def guess_mimetype (ext : String) : String :=
  let e := (String.mk (ext.data.dropWhile (fun c => c = '.'))).toLower
  if e = "mp4" ∨ e = "webm" then "video/" ++ e
  else if e = "mkv" then "video/x-matroska"
  else if e = "mp3" then "audio/mpeg"
  else if e = "m4a" then "audio/mp4"
  else if e = "ogg" then "audio/ogg"
  else "application/octet-stream"

/-- `pathlib.Path(p).name` for the POSIX paths produced by the worker. -/
def pathName (p : String) : String := (p.splitOn "/").getLastD p

/-- `pathlib.Path(p).suffix` for the simple `dir/title.ext` paths produced
by the worker. -/
def pathSuffix (p : String) : String :=
  match (pathName p).splitOn "." with
  | [] => ""
  | [_] => ""
  | parts => "." ++ parts.getLastD ""

/-- One invocation of the yt-dlp progress hook: the resolved values of
`data.get("total_bytes") or data.get("total_bytes_estimate") or 0` and
`data.get("downloaded_bytes") or 0`. -/
structure HookData where
  total : Nat
  done : Nat
  deriving DecidableEq, Repr

/-- The progress value the hook writes:
`int(15 + (done / total) * 70)` clamped by `min(90, max(20, percent))`
(float truncation of a nonnegative value is floor, i.e. Nat division). -/
def clampVal (d : HookData) : Int :=
  ((min 90 (max 20 (15 + d.done * 70 / d.total)) : Nat) : Int)

/-- The update(s) issued by one hook invocation (`if total:` guards the
division). -/
def hookUpd (d : HookData) : List (List (String × Val)) :=
  if d.total = 0 then []
  else [[("progress", .prim (.int (clampVal d)))]]

/-- Environment of one pipeline run: the payload-derived inputs and the
outcomes of the external operations (`probe`, size checks, the download
with its hook invocations, and the conversion). -/
structure Env where
  url : Option String
  want : String
  probe : Except String (List (String × Prim))
  checkSize : Except String Unit
  hookEvents : List HookData
  download : Except String String
  ensureSize : Except String Unit
  convert : Except String String

/-- The `except`-branch update `update(status="error", message=str(exc),
error=str(exc))` (also the shape of the two early validation errors, with
their fixed error codes passed explicitly). -/
def errorUpd (msg code : String) : List (String × Val) :=
  [("status", .prim (.str "error")), ("message", .prim (.str msg)),
   ("error", .prim (.str code))]

/-- `update(status="fetching", message=..., progress=5)`. -/
def fetchingUpd : List (String × Val) :=
  [("status", .prim (.str "fetching")),
   ("message", .prim (.str "Получаю метаданные")),
   ("progress", .prim (.int 5))]

/-- `update(meta=meta)`. -/
def metaUpd (meta : List (String × Prim)) : List (String × Val) :=
  [("meta", .dict (meta.map (fun kv => (kv.1, Val1.prim kv.2))))]

/-- `update(status="downloading", message=..., progress=15)`. -/
def downloadingUpd : List (String × Val) :=
  [("status", .prim (.str "downloading")),
   ("message", .prim (.str "Скачиваю медиаконтент...")),
   ("progress", .prim (.int 15))]

/-- `update(status="converting", ..., progress=95 or 92)`. -/
def convertingUpd (want : String) : List (String × Val) :=
  [("status", .prim (.str "converting")),
   ("message", .prim (.str ("Конвертация в " ++ want.toUpper ++ "..."))),
   ("progress", .prim (.int (if want = "mp4" ∨ want = "webm" ∨ want = "mkv"
                             then 95 else 92)))]

/-- The final `update(status="done", ..., progress=100, result={...}, ...)`. -/
def doneUpd (finalPath : String) (meta : List (String × Prim)) :
    List (String × Val) :=
  [("status", .prim (.str "done")),
   ("message", .prim (.str "Файл готов к скачиванию.")),
   ("progress", .prim (.int 100)),
   ("result", .dict [("file_path", .prim (.str finalPath)),
                     ("filename", .prim (.str (pathName finalPath))),
                     ("mimetype", .prim (.str (guess_mimetype
                         (pathSuffix finalPath)))),
                     ("meta", .dict meta)]),
   ("file_path", .prim (.str finalPath)),
   ("filename", .prim (.str (pathName finalPath))),
   ("mimetype", .prim (.str (guess_mimetype (pathSuffix finalPath))))]

/-- The sequence of `update(...)` calls issued by `process_job_async` for a
given environment, in program order (hook updates are issued during the
download, i.e. before the download result is acted upon).  The
`want == "source"` branch skips the conversion step; the trailing
`else`-branch of the format dispatch is dead code because membership in
`ALLOWED_FORMATS` was already checked. -/
def pipelineUpdates (env : Env) : List (List (String × Val)) :=
  match env.url with
  | none => [errorUpd "URL отсутствует." "missing_url"]
  | some _ =>
      if env.want ∈ ALLOWED_FORMATS then
        fetchingUpd ::
        (match env.probe with
         | .error e => [errorUpd e e]
         | .ok meta =>
            metaUpd meta ::
            (match env.checkSize with
             | .error e => [errorUpd e e]
             | .ok _ =>
                downloadingUpd ::
                ((env.hookEvents.map hookUpd).flatten ++
                 (match env.download with
                  | .error e => [errorUpd e e]
                  | .ok path =>
                      match env.ensureSize with
                      | .error e => [errorUpd e e]
                      | .ok _ =>
                          if env.want = "source" then [doneUpd path meta]
                          else
                            convertingUpd env.want ::
                            (match env.convert with
                             | .error e => [errorUpd e e]
                             | .ok fin => [doneUpd fin meta])))))
      else
        [errorUpd ("Формат " ++ env.want ++ " не поддерживается.")
          "unsupported_format"]

/-- The memory-mode updater is `job_update`, so the sequence of records
observable through the store is the chain of `mergeUpdate`s: the record
before any update, then the record after each update. -/
def recTrace (jobId : String) (tms : Nat → Int) :
    Rec → Nat → List (List (String × Val)) → List Rec
  | r, _, [] => [r]
  | r, k, u :: us =>
      r :: recTrace jobId tms (mergeUpdate r jobId u (tms k)) (k + 1) us

/-- The merge issued by `routes.download.delete_file`. -/
def deleteUpd : List (String × Val) :=
  [("result", .prim .null), ("status", .prim (.str "deleted")),
   ("message", .prim (.str "Файл удалён"))]

/-- The merge issued by `routes.download._cleanup_after_download`. -/
def cleanupUpd : List (String × Val) :=
  [("result", .prim .null), ("status", .prim (.str "deleted")),
   ("message", .prim (.str "Файл удалён после скачивания"))]

/-- All records a job exposes over its lifetime: creation, every pipeline
update, and any deletion merges (`extra`) issued afterwards. -/
def lifeTrace (env : Env) (jobId : String) (payload : Val) (t0 : Int)
    (tms : Nat → Int) (extra : List (List (String × Val))) : List Rec :=
  recTrace jobId tms (initialRecord jobId payload t0) 0
    (pipelineUpdates env ++ extra)

-- ### C2: `result` is non-null iff `status == "done"`

theorem merge_status (r : Rec) (jobId : String) (u : List (String × Val))
    (now : Int) :
    (mergeUpdate r jobId u now) "status"
      = (lastVal u "status").elim (r "status") some :=
  mergeUpdate_lookup r jobId u now "status" (by decide) (by decide)

theorem merge_result (r : Rec) (jobId : String) (u : List (String × Val))
    (now : Int) :
    (mergeUpdate r jobId u now) "result"
      = (lastVal u "result").elim (r "result") some :=
  mergeUpdate_lookup r jobId u now "result" (by decide) (by decide)

/-- Record state while the job is not done: `result` is null, `status` is
not `"done"`. -/
def phaseA (r : Rec) : Prop :=
  r "result" = some (.prim .null)
    ∧ r "status" ≠ some (.prim (.str "done"))

/-- Record state of a completed job: `result` non-null and `status` is
`"done"`. -/
def phaseB (r : Rec) : Prop :=
  (∃ v, r "result" = some v ∧ v ≠ Val.prim .null)
    ∧ r "status" = some (.prim (.str "done"))

/-- Updates that keep a not-done record not-done: they do not touch
`result` and set `status` (if at all) to something other than `"done"`. -/
def Adelta (u : List (String × Val)) : Prop :=
  lastVal u "result" = none
    ∧ (lastVal u "status" = none
       ∨ ∃ v, lastVal u "status" = some v ∧ v ≠ Val.prim (.str "done"))

/-- Deletion-style updates: null `result` and a non-done `status` in one
merge; they force the not-done state from anywhere. -/
def Ddelta (u : List (String × Val)) : Prop :=
  lastVal u "result" = some (.prim .null)
    ∧ ∃ v, lastVal u "status" = some v ∧ v ≠ Val.prim (.str "done")

/-- The done update: status `"done"` and a non-null `result` in one merge. -/
def Bdelta (u : List (String × Val)) : Prop :=
  (∃ v, lastVal u "result" = some v ∧ v ≠ Val.prim .null)
    ∧ lastVal u "status" = some (.prim (.str "done"))

theorem stepA {r : Rec} {u : List (String × Val)} (jobId : String) (now : Int)
    (hA : phaseA r) (hu : Adelta u) : phaseA (mergeUpdate r jobId u now) := by
  constructor
  · rw [merge_result, hu.1]
    exact hA.1
  · rw [merge_status]
    rcases hu.2 with h | ⟨v, hv, hne⟩
    · rw [h]
      exact hA.2
    · rw [hv]
      intro h2
      exact hne (Option.some.inj h2)

theorem stepD {u : List (String × Val)} (r : Rec) (jobId : String) (now : Int)
    (hu : Ddelta u) : phaseA (mergeUpdate r jobId u now) := by
  constructor
  · rw [merge_result, hu.1]
    rfl
  · rw [merge_status]
    obtain ⟨v, hv, hne⟩ := hu.2
    rw [hv]
    intro h2
    exact hne (Option.some.inj h2)

theorem stepB {u : List (String × Val)} (r : Rec) (jobId : String) (now : Int)
    (hu : Bdelta u) : phaseB (mergeUpdate r jobId u now) := by
  constructor
  · obtain ⟨v, hv, hne⟩ := hu.1
    refine ⟨v, ?_, hne⟩
    rw [merge_result, hv]
    rfl
  · rw [merge_status, hu.2]
    rfl

/-- Shape of every update sequence the program issues after job creation:
not-done-preserving merges, possibly one done merge, then only
deletion-style merges. -/
inductive GoodTrace : List (List (String × Val)) → Prop
  | nil : GoodTrace []
  | consA (u : List (String × Val)) (us : List (List (String × Val))) :
      Adelta u → GoodTrace us → GoodTrace (u :: us)
  | consD (u : List (String × Val)) (us : List (List (String × Val))) :
      Ddelta u → GoodTrace us → GoodTrace (u :: us)
  | consB (u : List (String × Val)) (us : List (List (String × Val))) :
      Bdelta u → (∀ w ∈ us, Ddelta w) → GoodTrace (u :: us)

theorem trace_allD (jobId : String) (tms : Nat → Int) :
    ∀ (us : List (List (String × Val))) (r : Rec) (k : Nat),
      (∀ w ∈ us, Ddelta w) → (phaseA r ∨ phaseB r) →
      ∀ x ∈ recTrace jobId tms r k us, phaseA x ∨ phaseB x := by
  intro us
  induction us with
  | nil =>
      intro r k _ hr x hx
      rcases List.mem_singleton.mp hx with h
      rw [h]
      exact hr
  | cons w ws ih =>
      intro r k hD hr x hx
      rcases List.mem_cons.mp hx with h | h
      · rw [h]
        exact hr
      · exact ih _ (k + 1) (fun v hv => hD v (List.mem_cons_of_mem _ hv))
          (Or.inl (stepD r jobId (tms k) (hD w (List.mem_cons_self _ _)))) x h

theorem trace_inv (jobId : String) (tms : Nat → Int) :
    ∀ (us : List (List (String × Val))), GoodTrace us →
      ∀ (r : Rec) (k : Nat), phaseA r →
      ∀ x ∈ recTrace jobId tms r k us, phaseA x ∨ phaseB x := by
  intro us hg
  induction hg with
  | nil =>
      intro r k hA x hx
      rw [List.mem_singleton.mp hx]
      exact Or.inl hA
  | consA u us ha _ ih =>
      intro r k hA x hx
      rcases List.mem_cons.mp hx with h | h
      · rw [h]
        exact Or.inl hA
      · exact ih _ (k + 1) (stepA jobId (tms k) hA ha) x h
  | consD u us hd _ ih =>
      intro r k hA x hx
      rcases List.mem_cons.mp hx with h | h
      · rw [h]
        exact Or.inl hA
      · exact ih _ (k + 1) (stepD r jobId (tms k) hd) x h
  | consB u us hb hD =>
      intro r k hA x hx
      rcases List.mem_cons.mp hx with h | h
      · rw [h]
        exact Or.inl hA
      · exact trace_allD jobId tms us _ (k + 1) hD
          (Or.inr (stepB r jobId (tms k) hb)) x h

theorem adelta_errorUpd (m c : String) : Adelta (errorUpd m c) :=
  ⟨rfl, Or.inr ⟨.prim (.str "error"), rfl, by decide⟩⟩

theorem adelta_fetchingUpd : Adelta fetchingUpd :=
  ⟨rfl, Or.inr ⟨.prim (.str "fetching"), rfl, by decide⟩⟩

theorem adelta_metaUpd (m : List (String × Prim)) : Adelta (metaUpd m) :=
  ⟨rfl, Or.inl rfl⟩

theorem adelta_downloadingUpd : Adelta downloadingUpd :=
  ⟨rfl, Or.inr ⟨.prim (.str "downloading"), rfl, by decide⟩⟩

theorem adelta_convertingUpd (w : String) : Adelta (convertingUpd w) :=
  ⟨rfl, Or.inr ⟨.prim (.str "converting"), rfl, by decide⟩⟩

theorem adelta_hook (d : HookData) : ∀ u ∈ hookUpd d, Adelta u := by
  intro u hu
  by_cases h : d.total = 0
  · simp [hookUpd, h] at hu
  · simp only [hookUpd, if_neg h, List.mem_singleton] at hu
    rw [hu]
    exact ⟨rfl, Or.inl rfl⟩

theorem bdelta_doneUpd (p : String) (m : List (String × Prim)) :
    Bdelta (doneUpd p m) :=
  ⟨⟨.dict [("file_path", .prim (.str p)),
           ("filename", .prim (.str (pathName p))),
           ("mimetype", .prim (.str (guess_mimetype (pathSuffix p)))),
           ("meta", .dict m)], rfl, fun h => Val.noConfusion h⟩, rfl⟩

theorem ddelta_deleteUpd : Ddelta deleteUpd :=
  ⟨rfl, ⟨.prim (.str "deleted"), rfl, by decide⟩⟩

theorem ddelta_cleanupUpd : Ddelta cleanupUpd :=
  ⟨rfl, ⟨.prim (.str "deleted"), rfl, by decide⟩⟩

theorem goodTrace_of_allD :
    ∀ us : List (List (String × Val)), (∀ w ∈ us, Ddelta w) → GoodTrace us := by
  intro us
  induction us with
  | nil => intro _; exact GoodTrace.nil
  | cons w ws ih =>
      intro h
      exact GoodTrace.consD w ws (h w (List.mem_cons_self _ _))
        (ih fun v hv => h v (List.mem_cons_of_mem _ hv))

theorem goodTrace_append_A :
    ∀ (xs ys : List (List (String × Val))), (∀ u ∈ xs, Adelta u) →
      GoodTrace ys → GoodTrace (xs ++ ys) := by
  intro xs ys
  induction xs with
  | nil => intro _ hy; exact hy
  | cons x xt ih =>
      intro hx hy
      exact GoodTrace.consA x (xt ++ ys) (hx x (List.mem_cons_self _ _))
        (ih (fun u hu => hx u (List.mem_cons_of_mem _ hu)) hy)

theorem hooks_all_adelta (hooks : List HookData) :
    ∀ u ∈ (hooks.map hookUpd).flatten, Adelta u := by
  intro u hu
  rcases List.exists_of_mem_flatten hu with ⟨l, hl, hul⟩
  rcases List.mem_map.mp hl with ⟨d, _, rfl⟩
  exact adelta_hook d u hul

theorem pipe_goodTrace (env : Env)
    (extra : List (List (String × Val)))
    (hextra : ∀ u ∈ extra, u = deleteUpd ∨ u = cleanupUpd) :
    GoodTrace (pipelineUpdates env ++ extra) := by
  have hD : ∀ w ∈ extra, Ddelta w := by
    intro w hw
    rcases hextra w hw with h | h
    · rw [h]; exact ddelta_deleteUpd
    · rw [h]; exact ddelta_cleanupUpd
  have herr : ∀ m c : String, GoodTrace (errorUpd m c :: extra) := by
    intro m c
    exact GoodTrace.consA _ _ (adelta_errorUpd m c) (goodTrace_of_allD extra hD)
  have hdone : ∀ (p : String) (m : List (String × Prim)),
      GoodTrace (doneUpd p m :: extra) := by
    intro p m
    exact GoodTrace.consB _ _ (bdelta_doneUpd p m) hD
  obtain ⟨url, want, probe, checkSize, hooks, download, ensureSize, cv⟩ := env
  unfold pipelineUpdates
  cases url with
  | none => exact herr _ _
  | some u =>
      by_cases hw : want ∈ ALLOWED_FORMATS
      · rw [if_pos hw]
        rw [List.cons_append]
        apply GoodTrace.consA _ _ adelta_fetchingUpd
        cases probe with
        | error e => exact herr e e
        | ok meta =>
            rw [List.cons_append]
            apply GoodTrace.consA _ _ (adelta_metaUpd meta)
            cases checkSize with
            | error e => exact herr e e
            | ok _ =>
                rw [List.cons_append]
                apply GoodTrace.consA _ _ adelta_downloadingUpd
                rw [List.append_assoc]
                apply goodTrace_append_A _ _ (hooks_all_adelta hooks)
                cases download with
                | error e => exact herr e e
                | ok path =>
                    cases ensureSize with
                    | error e => exact herr e e
                    | ok _ =>
                        dsimp only
                        by_cases hs : want = "source"
                        · rw [if_pos hs]
                          exact hdone path meta
                        · rw [if_neg hs]
                          rw [List.cons_append]
                          apply GoodTrace.consA _ _ (adelta_convertingUpd _)
                          cases cv with
                          | error e => exact herr e e
                          | ok fin => exact hdone fin meta
      · rw [if_neg hw]
        exact herr _ _

theorem phaseA_initialRecord (jobId : String) (payload : Val) (t0 : Int) :
    phaseA (initialRecord jobId payload t0) := by
  constructor
  · rfl
  · rw [show (initialRecord jobId payload t0) "status"
      = some (Val.prim (.str "queued")) from rfl]
    intro h
    exact absurd (Option.some.inj h) (by decide)

/-- C2.  For every pipeline run (any environment), at every point of the
job's lifetime — the freshly created record, the record after each pipeline
update, and the record after any subsequent deletion merges — the `result`
field is non-null exactly when `status` is `"done"`; in particular the
deletion merges null `result` and set `status` to `"deleted"` in the same
merge, and error updates leave `result` null. -/
theorem C2_result_nonnull_iff_done :
    ∀ (env : Env) (jobId : String) (payload : Val) (t0 : Int)
      (tms : Nat → Int) (extra : List (List (String × Val))),
      (∀ u ∈ extra, u = deleteUpd ∨ u = cleanupUpd) →
      ∀ r ∈ lifeTrace env jobId payload t0 tms extra,
        ((∃ v, r "result" = some v ∧ v ≠ Val.prim .null)
          ↔ r "status" = some (.prim (.str "done"))) := by
  intro env jobId payload t0 tms extra hextra r hr
  have hinv := trace_inv jobId tms _ (pipe_goodTrace env extra hextra)
    (initialRecord jobId payload t0) 0 (phaseA_initialRecord jobId payload t0)
    r hr
  rcases hinv with hA | hB
  · constructor
    · rintro ⟨v, hv, hne⟩
      rw [hA.1] at hv
      exact absurd (Option.some.inj hv).symm hne
    · intro h
      exact absurd h hA.2
  · exact ⟨fun _ => hB.2, fun _ => hB.1⟩

/-- An environment whose payload carries no URL. -/
def envNoUrl : Env :=
  ⟨none, "mp4", .ok [], .ok (), [], .ok "", .ok (), .ok ""⟩

theorem C2_result_nonnull_iff_done_witness :
    (∃ v, (initialRecord "j" payload0 0) "result" = some v
        ∧ v ≠ Val.prim .null)
      ↔ (initialRecord "j" payload0 0) "status"
          = some (.prim (.str "done")) :=
  C2_result_nonnull_iff_done envNoUrl "j" payload0 0 (fun _ => 0) []
    (fun u hu => absurd hu (List.not_mem_nil u))
    (initialRecord "j" payload0 0) (List.mem_cons_self _ _)

-- ### C3: status transitions

/-- Adjacent-pair check: both records carry string statuses and the pair is
either unchanged or an allowed transition. -/
def pairOK (R : String → String → Bool) (r1 r2 : Rec) : Bool :=
  match r1 "status", r2 "status" with
  | some (.prim (.str s1)), some (.prim (.str s2)) => s1 == s2 || R s1 s2
  | _, _ => false

/-- Every adjacent pair of records satisfies `pairOK`. -/
def chainOK (R : String → String → Bool) : List Rec → Bool
  | [] => true
  | [_] => true
  | r1 :: r2 :: rest => pairOK R r1 r2 && chainOK R (r2 :: rest)

/-- The transition relation exactly as the claim states it: the strict path
queued → fetching → downloading → converting → done, error from any
non-terminal state, deleted only from done or error. -/
def Rclaim (a b : String) : Bool :=
  (a == "queued" && b == "fetching") || (a == "fetching" && b == "downloading")
  || (a == "downloading" && b == "converting")
  || (a == "converting" && b == "done")
  || ((a == "queued" || a == "fetching" || a == "downloading"
       || a == "converting") && b == "error")
  || ((a == "done" || a == "error") && b == "deleted")

/-- The relation the code actually follows: additionally
downloading → done, taken when the requested format is "source" (keep the
original, no conversion step). -/
def Rmod (a b : String) : Bool :=
  Rclaim a b || (a == "downloading" && b == "done")

/-- A status-transition certificate for an update sequence starting at
status `s`. -/
inductive PathOK (R : String → String → Bool) :
    String → List (List (String × Val)) → Prop
  | nil (s : String) : PathOK R s []
  | keep (s : String) (u : List (String × Val))
      (us : List (List (String × Val))) :
      lastVal u "status" = none → PathOK R s us → PathOK R s (u :: us)
  | move (s s2 : String) (u : List (String × Val))
      (us : List (List (String × Val))) :
      lastVal u "status" = some (.prim (.str s2)) →
      (s == s2 || R s s2) = true → PathOK R s2 us → PathOK R s (u :: us)

theorem recTrace_shape (jobId : String) (tms : Nat → Int)
    (us : List (List (String × Val))) (r : Rec) (k : Nat) :
    ∃ rest, recTrace jobId tms r k us = r :: rest := by
  cases us with
  | nil => exact ⟨[], rfl⟩
  | cons u ut => exact ⟨_, rfl⟩

theorem pathOK_chainOK (jobId : String) (tms : Nat → Int)
    (R : String → String → Bool) :
    ∀ (us : List (List (String × Val))) (s : String), PathOK R s us →
      ∀ (r : Rec) (k : Nat), r "status" = some (.prim (.str s)) →
      chainOK R (recTrace jobId tms r k us) = true := by
  intro us s hp
  induction hp with
  | nil s => intro r k _; rfl
  | keep s u ut hnone _ ih =>
      intro r k hs
      have hs2 : (mergeUpdate r jobId u (tms k)) "status"
          = some (.prim (.str s)) := by
        rw [merge_status, hnone]
        exact hs
      obtain ⟨rest, hrest⟩ := recTrace_shape jobId tms ut
        (mergeUpdate r jobId u (tms k)) (k + 1)
      have h1 : pairOK R r (mergeUpdate r jobId u (tms k)) = true := by
        simp [pairOK, hs, hs2]
      have h2 := ih (mergeUpdate r jobId u (tms k)) (k + 1) hs2
      rw [hrest] at h2
      rw [show recTrace jobId tms r k (u :: ut)
        = r :: recTrace jobId tms (mergeUpdate r jobId u (tms k)) (k + 1) ut
        from rfl, hrest]
      show (pairOK R r (mergeUpdate r jobId u (tms k))
        && chainOK R (mergeUpdate r jobId u (tms k) :: rest)) = true
      rw [h1, h2]
      rfl
  | move s s2 u ut hset hr _ ih =>
      intro r k hs
      have hs2 : (mergeUpdate r jobId u (tms k)) "status"
          = some (.prim (.str s2)) := by
        rw [merge_status, hset]
        rfl
      obtain ⟨rest, hrest⟩ := recTrace_shape jobId tms ut
        (mergeUpdate r jobId u (tms k)) (k + 1)
      have h1 : pairOK R r (mergeUpdate r jobId u (tms k)) = true := by
        simp only [pairOK, hs, hs2]
        exact hr
      have h2 := ih (mergeUpdate r jobId u (tms k)) (k + 1) hs2
      rw [hrest] at h2
      rw [show recTrace jobId tms r k (u :: ut)
        = r :: recTrace jobId tms (mergeUpdate r jobId u (tms k)) (k + 1) ut
        from rfl, hrest]
      show (pairOK R r (mergeUpdate r jobId u (tms k))
        && chainOK R (mergeUpdate r jobId u (tms k) :: rest)) = true
      rw [h1, h2]
      rfl

theorem pathOK_append_keeps (R : String → String → Bool) :
    ∀ (xs : List (List (String × Val))) (s : String)
      (ys : List (List (String × Val))),
      (∀ u ∈ xs, lastVal u "status" = none) → PathOK R s ys →
      PathOK R s (xs ++ ys) := by
  intro xs
  induction xs with
  | nil => intro s ys _ hy; exact hy
  | cons x xt ih =>
      intro s ys hx hy
      exact PathOK.keep s x (xt ++ ys) (hx x (List.mem_cons_self _ _))
        (ih s ys (fun u hu => hx u (List.mem_cons_of_mem _ hu)) hy)

theorem hooks_status_none (hooks : List HookData) :
    ∀ u ∈ (hooks.map hookUpd).flatten, lastVal u "status" = none := by
  intro u hu
  rcases List.exists_of_mem_flatten hu with ⟨l, hl, hul⟩
  rcases List.mem_map.mp hl with ⟨d, _, rfl⟩
  by_cases h : d.total = 0
  · simp [hookUpd, h] at hul
  · simp only [hookUpd, if_neg h, List.mem_singleton] at hul
    rw [hul]
    rfl

theorem pathOK_deletes :
    ∀ (extra : List (List (String × Val))) (s : String),
      (∀ u ∈ extra, u = deleteUpd ∨ u = cleanupUpd) →
      (s == "deleted" || Rmod s "deleted") = true →
      PathOK Rmod s extra := by
  intro extra
  induction extra with
  | nil => intro s _ _; exact PathOK.nil s
  | cons u ut ih =>
      intro s hext hok
      have htail : ∀ v ∈ ut, v = deleteUpd ∨ v = cleanupUpd :=
        fun v hv => hext v (List.mem_cons_of_mem _ hv)
      have hrest : PathOK Rmod "deleted" ut := ih "deleted" htail (by decide)
      rcases hext u (List.mem_cons_self _ _) with h | h
      · rw [h]
        exact PathOK.move s "deleted" _ _ rfl hok hrest
      · rw [h]
        exact PathOK.move s "deleted" _ _ rfl hok hrest

theorem pipe_pathOK (env : Env) (extra : List (List (String × Val)))
    (hextra : ∀ u ∈ extra, u = deleteUpd ∨ u = cleanupUpd) :
    PathOK Rmod "queued" (pipelineUpdates env ++ extra) := by
  have hdel : ∀ s : String, (s == "deleted" || Rmod s "deleted") = true →
      PathOK Rmod s extra := fun s h => pathOK_deletes extra s hextra h
  have herr : ∀ s m c : String, (s == "error" || Rmod s "error") = true →
      PathOK Rmod s (errorUpd m c :: extra) := by
    intro s m c h
    exact PathOK.move s "error" _ _ rfl h (hdel "error" (by decide))
  have hdone : ∀ (s p : String) (m : List (String × Prim)),
      (s == "done" || Rmod s "done") = true →
      PathOK Rmod s (doneUpd p m :: extra) := by
    intro s p m h
    exact PathOK.move s "done" _ _ rfl h (hdel "done" (by decide))
  obtain ⟨url, want, probe, checkSize, hooks, download, ensureSize, cv⟩ := env
  unfold pipelineUpdates
  cases url with
  | none => exact herr "queued" _ _ (by decide)
  | some u =>
      by_cases hw : want ∈ ALLOWED_FORMATS
      · rw [if_pos hw, List.cons_append]
        apply PathOK.move "queued" "fetching" fetchingUpd _ rfl (by decide)
        cases probe with
        | error e => exact herr "fetching" e e (by decide)
        | ok meta =>
            rw [List.cons_append]
            apply PathOK.keep _ (metaUpd meta) _ rfl
            cases checkSize with
            | error e => exact herr "fetching" e e (by decide)
            | ok _ =>
                rw [List.cons_append]
                apply PathOK.move "fetching" "downloading" downloadingUpd _ rfl (by decide)
                rw [List.append_assoc]
                apply pathOK_append_keeps _ _ _ _ (hooks_status_none hooks)
                cases download with
                | error e => exact herr "downloading" e e (by decide)
                | ok path =>
                    cases ensureSize with
                    | error e => exact herr "downloading" e e (by decide)
                    | ok _ =>
                        dsimp only
                        by_cases hs2 : want = "source"
                        · rw [if_pos hs2]
                          exact hdone "downloading" path meta (by decide)
                        · rw [if_neg hs2, List.cons_append]
                          apply PathOK.move "downloading" "converting"
                            (convertingUpd want) _ rfl (by decide)
                          cases cv with
                          | error e => exact herr "converting" e e (by decide)
                          | ok fin =>
                              exact hdone "converting" fin meta (by decide)
      · rw [if_neg hw]
        exact herr "queued" _ _ (by decide)

/-- A successful run that keeps the original container
(`format == "source"`), with one progress callback. -/
def envSrc : Env :=
  ⟨some "https://www.youtube.com/watch?v=abc", "source",
   .ok [("title", .str "t"), ("duration", .int 10), ("thumbnail", .null),
        ("estimated_size_mb", .int 1)],
   .ok (), [⟨1024, 512⟩], .ok "/tmp/j/t.mp4", .ok (), .ok "/tmp/j/t.mp4"⟩

/-- A run whose metadata probe raises. -/
def envProbeErr : Env :=
  ⟨some "https://www.youtube.com/watch?v=abc", "mp4", .error "boom",
   .ok (), [], .ok "", .ok (), .ok ""⟩

/-- A run whose download raises (after an empty hook sequence). -/
def envDlErr : Env :=
  ⟨some "https://www.youtube.com/watch?v=abc", "mp4", .ok [], .ok (), [],
   .error "neterr", .ok (), .ok ""⟩

/-- A run whose conversion to mp3 raises. -/
def envConvErr : Env :=
  ⟨some "https://www.youtube.com/watch?v=abc", "mp3", .ok [], .ok (), [],
   .ok "/tmp/j/a.mp4", .ok (), .error "ffmpeg"⟩

/-- C3 counterexample.  When the requested format is `"source"` the
pipeline completes without a `converting` step: the observed status
sequence is queued, fetching, fetching, downloading, downloading, done,
whose downloading → done step is not an allowed transition of the claimed
path — so the claimed relation rejects this (successful, fully legal)
run. -/
theorem C3_source_run_breaks_claimed_path :
    chainOK Rclaim (lifeTrace envSrc "j" payload0 0 (fun _ => 0) []) = false
    ∧ (lifeTrace envSrc "j" payload0 0 (fun _ => 0) []).map
        (fun r => r "status")
      = [some (.prim (.str "queued")), some (.prim (.str "fetching")),
         some (.prim (.str "fetching")), some (.prim (.str "downloading")),
         some (.prim (.str "downloading")), some (.prim (.str "done"))] := by
  constructor
  · decide
  · decide

/-- C3 (amended).  Status values follow the path queued → fetching →
downloading → converting → done extended with the skip
downloading → done taken when the requested format is `"source"`; `error`
is reachable from any non-terminal state, `deleted` only from `done` or
`error`, and nothing leaves `done`/`error`/`deleted` except
`done`/`error` → `deleted` (first conjunct, over every environment and any
trailing deletion merges; unchanged-status writes count as no transition).
The remaining conjuncts exhibit concrete runs realising queued → error,
fetching → error, downloading → error, converting → error and
done → deleted. -/
theorem C3_status_transitions :
    (∀ (env : Env) (jobId : String) (payload : Val) (t0 : Int)
        (tms : Nat → Int) (extra : List (List (String × Val))),
        (∀ u ∈ extra, u = deleteUpd ∨ u = cleanupUpd) →
        chainOK Rmod (lifeTrace env jobId payload t0 tms extra) = true)
  ∧ (lifeTrace envNoUrl "j" payload0 0 (fun _ => 0) []).map
      (fun r => r "status")
      = [some (.prim (.str "queued")), some (.prim (.str "error"))]
  ∧ (lifeTrace envProbeErr "j" payload0 0 (fun _ => 0) []).map
      (fun r => r "status")
      = [some (.prim (.str "queued")), some (.prim (.str "fetching")),
         some (.prim (.str "error"))]
  ∧ (lifeTrace envDlErr "j" payload0 0 (fun _ => 0) []).map
      (fun r => r "status")
      = [some (.prim (.str "queued")), some (.prim (.str "fetching")),
         some (.prim (.str "fetching")), some (.prim (.str "downloading")),
         some (.prim (.str "error"))]
  ∧ (lifeTrace envConvErr "j" payload0 0 (fun _ => 0) []).map
      (fun r => r "status")
      = [some (.prim (.str "queued")), some (.prim (.str "fetching")),
         some (.prim (.str "fetching")), some (.prim (.str "downloading")),
         some (.prim (.str "converting")), some (.prim (.str "error"))]
  ∧ (lifeTrace envSrc "j" payload0 0 (fun _ => 0) [deleteUpd]).map
      (fun r => r "status")
      = [some (.prim (.str "queued")), some (.prim (.str "fetching")),
         some (.prim (.str "fetching")), some (.prim (.str "downloading")),
         some (.prim (.str "downloading")), some (.prim (.str "done")),
         some (.prim (.str "deleted"))] := by
  refine ⟨?_, by decide, by decide, by decide, by decide, by decide⟩
  intro env jobId payload t0 tms extra hextra
  exact pathOK_chainOK jobId tms Rmod _ "queued"
    (pipe_pathOK env extra hextra) (initialRecord jobId payload t0) 0 rfl

theorem C3_status_transitions_witness :
    chainOK Rmod (lifeTrace envSrc "j" payload0 0 (fun _ => 0) [deleteUpd])
      = true :=
  C3_status_transitions.1 envSrc "j" payload0 0 (fun _ => 0) [deleteUpd]
    (fun _ hu => Or.inl (List.mem_singleton.mp hu))

-- ### C4: progress bounds and monotonicity

theorem merge_progress (r : Rec) (jobId : String) (u : List (String × Val))
    (now : Int) :
    (mergeUpdate r jobId u now) "progress"
      = (lastVal u "progress").elim (r "progress") some :=
  mergeUpdate_lookup r jobId u now "progress" (by decide) (by decide)

/-- Adjacent records both carry integer progress and it never decreases. -/
def progMono : List Rec → Bool
  | [] => true
  | [_] => true
  | r1 :: r2 :: rest =>
      (match r1 "progress", r2 "progress" with
       | some (.prim (.int p1)), some (.prim (.int p2)) => decide (p1 ≤ p2)
       | _, _ => false)
      && progMono (r2 :: rest)

/-- Every record carries an integer progress within 0–100. -/
def progBounds : List Rec → Bool
  | [] => true
  | r :: rest =>
      (match r "progress" with
       | some (.prim (.int p)) => decide (0 ≤ p) && decide (p ≤ 100)
       | _ => false)
      && progBounds rest

/-- A run in which the download's first attempt reports completion
(1024/1024 bytes) and a retry then restarts the transfer from 0 bytes. -/
def envRetry : Env :=
  ⟨some "https://www.youtube.com/watch?v=abc", "source", .ok [], .ok (),
   [⟨1024, 1024⟩, ⟨1024, 0⟩], .ok "/tmp/j/t.mp4", .ok (), .ok "/tmp/j/t.mp4"⟩

/-- C4 counterexample.  A retried (or multi-stream) download re-invokes the
hook with a smaller downloaded-byte count; the hook recomputes progress
from the current ratio, so the stored progress drops (here 85 back to 20)
— the observed progress history 0, 5, 5, 15, 85, 20, 100 is not
non-decreasing. -/
theorem C4_retry_decreases_progress :
    progMono (lifeTrace envRetry "j" payload0 0 (fun _ => 0) []) = false
    ∧ (lifeTrace envRetry "j" payload0 0 (fun _ => 0) []).map
        (fun r => r "progress")
      = [some (.prim (.int 0)), some (.prim (.int 5)), some (.prim (.int 5)),
         some (.prim (.int 15)), some (.prim (.int 85)),
         some (.prim (.int 20)), some (.prim (.int 100))] := by
  constructor
  · decide
  · decide

/-- Certificate that every progress write in an update sequence is an
integer within 0–100. -/
inductive ProgBndP : List (List (String × Val)) → Prop
  | nil : ProgBndP []
  | keep (u : List (String × Val)) (us : List (List (String × Val))) :
      lastVal u "progress" = none → ProgBndP us → ProgBndP (u :: us)
  | move (p : Int) (u : List (String × Val))
      (us : List (List (String × Val))) :
      lastVal u "progress" = some (.prim (.int p)) → 0 ≤ p → p ≤ 100 →
      ProgBndP us → ProgBndP (u :: us)

theorem progBnd_chain (jobId : String) (tms : Nat → Int) :
    ∀ (us : List (List (String × Val))), ProgBndP us →
      ∀ (r : Rec) (k : Nat) (p : Int),
      r "progress" = some (.prim (.int p)) → 0 ≤ p → p ≤ 100 →
      progBounds (recTrace jobId tms r k us) = true := by
  intro us hb
  induction hb with
  | nil =>
      intro r k p hp h0 h100
      show ((match r "progress" with
             | some (.prim (.int p)) => decide (0 ≤ p) && decide (p ≤ 100)
             | _ => false) && progBounds []) = true
      rw [hp]
      simp [progBounds, h0, h100]
  | keep u ut hnone _ ih =>
      intro r k p hp h0 h100
      have hp2 : (mergeUpdate r jobId u (tms k)) "progress"
          = some (.prim (.int p)) := by
        rw [merge_progress, hnone]
        exact hp
      show ((match r "progress" with
             | some (.prim (.int p)) => decide (0 ≤ p) && decide (p ≤ 100)
             | _ => false)
        && progBounds (recTrace jobId tms (mergeUpdate r jobId u (tms k))
              (k + 1) ut)) = true
      rw [hp, ih _ (k + 1) p hp2 h0 h100]
      simp [h0, h100]
  | move q u ut hset hq0 hq100 _ ih =>
      intro r k p hp h0 h100
      have hp2 : (mergeUpdate r jobId u (tms k)) "progress"
          = some (.prim (.int q)) := by
        rw [merge_progress, hset]
        rfl
      show ((match r "progress" with
             | some (.prim (.int p)) => decide (0 ≤ p) && decide (p ≤ 100)
             | _ => false)
        && progBounds (recTrace jobId tms (mergeUpdate r jobId u (tms k))
              (k + 1) ut)) = true
      rw [hp, ih _ (k + 1) q hp2 hq0 hq100]
      simp [h0, h100]

/-- Certificate that progress writes are non-decreasing starting from
value `p`. -/
inductive ProgPathP : Int → List (List (String × Val)) → Prop
  | nil (p : Int) : ProgPathP p []
  | keep (p : Int) (u : List (String × Val))
      (us : List (List (String × Val))) :
      lastVal u "progress" = none → ProgPathP p us → ProgPathP p (u :: us)
  | move (p p2 : Int) (u : List (String × Val))
      (us : List (List (String × Val))) :
      lastVal u "progress" = some (.prim (.int p2)) → p ≤ p2 →
      ProgPathP p2 us → ProgPathP p (u :: us)

theorem progPath_chain (jobId : String) (tms : Nat → Int) :
    ∀ (us : List (List (String × Val))) (p : Int), ProgPathP p us →
      ∀ (r : Rec) (k : Nat), r "progress" = some (.prim (.int p)) →
      progMono (recTrace jobId tms r k us) = true := by
  intro us p hp
  induction hp with
  | nil p => intro r k _; rfl
  | keep p u ut hnone _ ih =>
      intro r k hr
      have hr2 : (mergeUpdate r jobId u (tms k)) "progress"
          = some (.prim (.int p)) := by
        rw [merge_progress, hnone]
        exact hr
      obtain ⟨rest, hrest⟩ := recTrace_shape jobId tms ut
        (mergeUpdate r jobId u (tms k)) (k + 1)
      have h2 := ih (mergeUpdate r jobId u (tms k)) (k + 1) hr2
      rw [hrest] at h2
      rw [show recTrace jobId tms r k (u :: ut)
        = r :: recTrace jobId tms (mergeUpdate r jobId u (tms k)) (k + 1) ut
        from rfl, hrest]
      show ((match r "progress", (mergeUpdate r jobId u (tms k)) "progress"
             with
             | some (.prim (.int p1)), some (.prim (.int p2)) =>
                 decide (p1 ≤ p2)
             | _, _ => false)
        && progMono (mergeUpdate r jobId u (tms k) :: rest)) = true
      rw [hr, hr2, h2]
      simp
  | move p p2 u ut hset hle _ ih =>
      intro r k hr
      have hr2 : (mergeUpdate r jobId u (tms k)) "progress"
          = some (.prim (.int p2)) := by
        rw [merge_progress, hset]
        rfl
      obtain ⟨rest, hrest⟩ := recTrace_shape jobId tms ut
        (mergeUpdate r jobId u (tms k)) (k + 1)
      have h2 := ih (mergeUpdate r jobId u (tms k)) (k + 1) hr2
      rw [hrest] at h2
      rw [show recTrace jobId tms r k (u :: ut)
        = r :: recTrace jobId tms (mergeUpdate r jobId u (tms k)) (k + 1) ut
        from rfl, hrest]
      show ((match r "progress", (mergeUpdate r jobId u (tms k)) "progress"
             with
             | some (.prim (.int p1)), some (.prim (.int p2)) =>
                 decide (p1 ≤ p2)
             | _, _ => false)
        && progMono (mergeUpdate r jobId u (tms k) :: rest)) = true
      rw [hr, hr2, h2]
      simp [hle]

theorem clampVal_lb (d : HookData) : 20 ≤ clampVal d := by
  unfold clampVal
  have h : 20 ≤ min 90 (max 20 (15 + d.done * 70 / d.total)) :=
    le_min (by decide) (Nat.le_max_left _ _)
  exact_mod_cast h

theorem clampVal_ub (d : HookData) : clampVal d ≤ 90 := by
  unfold clampVal
  have h : min 90 (max 20 (15 + d.done * 70 / d.total)) ≤ 90 :=
    min_le_left _ _
  exact_mod_cast h

theorem nat_div_cross (a b c d : Nat) (hb : 0 < b) (hd : 0 < d)
    (h : a * d ≤ c * b) : a / b ≤ c / d := by
  have h1 : a / b * b ≤ a := Nat.div_mul_le_self a b
  have h3 : a / b * d * b ≤ c * b := by
    calc a / b * d * b = a / b * b * d := by ring
    _ ≤ a * d := Nat.mul_le_mul_right d h1
    _ ≤ c * b := h
  have h4 : a / b * d ≤ c := Nat.le_of_mul_le_mul_right h3 hb
  exact (Nat.le_div_iff_mul_le hd).mpr h4

/-- The reported completion ratio of `d` is at most that of `e`. -/
def hookRatioLE (d e : HookData) : Prop :=
  d.done * e.total ≤ e.done * d.total

instance : DecidableRel hookRatioLE :=
  fun d e => inferInstanceAs (Decidable (d.done * e.total ≤ e.done * d.total))

/-- The hook invocations that actually write progress (`if total:`). -/
def firedHooks (hooks : List HookData) : List HookData :=
  hooks.filter (fun d => decide (d.total ≠ 0))

theorem clampVal_mono (d e : HookData) (hd : d.total ≠ 0) (he : e.total ≠ 0)
    (hr : hookRatioLE d e) : clampVal d ≤ clampVal e := by
  have hdiv : d.done * 70 / d.total ≤ e.done * 70 / e.total := by
    apply nat_div_cross _ _ _ _ (Nat.pos_of_ne_zero hd)
      (Nat.pos_of_ne_zero he)
    calc d.done * 70 * e.total = d.done * e.total * 70 := by ring
    _ ≤ e.done * d.total * 70 := Nat.mul_le_mul_right 70 hr
    _ = e.done * 70 * d.total := by ring
  have h2 : min 90 (max 20 (15 + d.done * 70 / d.total))
      ≤ min 90 (max 20 (15 + e.done * 70 / e.total)) :=
    min_le_min (le_refl 90) (max_le_max (le_refl 20) (by omega))
  unfold clampVal
  exact_mod_cast h2

theorem hooks_progPath :
    ∀ (hooks : List HookData) (p : Int) (ys : List (List (String × Val))),
      p ≤ 90 → List.Chain' hookRatioLE (firedHooks hooks) →
      (∀ d, (firedHooks hooks).head? = some d → p ≤ clampVal d) →
      (∀ q : Int, q ≤ 90 → ProgPathP q ys) →
      ProgPathP p ((hooks.map hookUpd).flatten ++ ys) := by
  intro hooks
  induction hooks with
  | nil => intro p ys hp _ _ hcont; exact hcont p hp
  | cons d ds ih =>
      intro p ys hp hchain hhead hcont
      by_cases h : d.total = 0
      · have hU : hookUpd d = [] := by simp [hookUpd, h]
        have hfil : firedHooks (d :: ds) = firedHooks ds := by
          simp [firedHooks, h]
        rw [List.map_cons, List.flatten_cons, hU, List.nil_append]
        rw [hfil] at hchain
        exact ih p ys hp hchain
          (fun e he => hhead e (by rw [hfil]; exact he)) hcont
      · have hU : hookUpd d = [[("progress", .prim (.int (clampVal d)))]] := by
          simp [hookUpd, h]
        have hfil : firedHooks (d :: ds) = d :: firedHooks ds := by
          simp [firedHooks, h]
        rw [List.map_cons, List.flatten_cons, hU]
        show ProgPathP p ([("progress", .prim (.int (clampVal d)))]
          :: ((ds.map hookUpd).flatten ++ ys))
        refine ProgPathP.move p (clampVal d) _ _ rfl ?_ ?_
        · apply hhead d
          rw [hfil]
          rfl
        · rw [hfil] at hchain
          have hpair := (List.chain'_cons'.mp hchain).1
          have htail := (List.chain'_cons'.mp hchain).2
          apply ih (clampVal d) ys (clampVal_ub d) htail ?_ hcont
          intro e he
          have hre : hookRatioLE d e := hpair e (Option.mem_def.mpr he)
          have hmem : e ∈ firedHooks ds :=
            List.mem_of_mem_head? (Option.mem_def.mpr he)
          have hetot : e.total ≠ 0 := by
            have hm2 := List.mem_filter.mp hmem
            simpa using hm2.2
          exact clampVal_mono d e h hetot hre

theorem progPath_deletes :
    ∀ (extra : List (List (String × Val))),
      (∀ u ∈ extra, u = deleteUpd ∨ u = cleanupUpd) →
      ∀ q : Int, ProgPathP q extra := by
  intro extra
  induction extra with
  | nil => intro _ q; exact ProgPathP.nil q
  | cons u ut ih =>
      intro hext q
      have htail := ih (fun v hv => hext v (List.mem_cons_of_mem _ hv)) q
      rcases hext u (List.mem_cons_self _ _) with h | h
      · rw [h]
        exact ProgPathP.keep q _ _ rfl htail
      · rw [h]
        exact ProgPathP.keep q _ _ rfl htail

theorem progBnd_deletes :
    ∀ (extra : List (List (String × Val))),
      (∀ u ∈ extra, u = deleteUpd ∨ u = cleanupUpd) → ProgBndP extra := by
  intro extra
  induction extra with
  | nil => intro _; exact ProgBndP.nil
  | cons u ut ih =>
      intro hext
      have htail := ih (fun v hv => hext v (List.mem_cons_of_mem _ hv))
      rcases hext u (List.mem_cons_self _ _) with h | h
      · rw [h]
        exact ProgBndP.keep _ _ rfl htail
      · rw [h]
        exact ProgBndP.keep _ _ rfl htail

theorem hooks_progBnd :
    ∀ (hooks : List HookData) (ys : List (List (String × Val))),
      ProgBndP ys → ProgBndP ((hooks.map hookUpd).flatten ++ ys) := by
  intro hooks
  induction hooks with
  | nil => intro ys hy; exact hy
  | cons d ds ih =>
      intro ys hy
      by_cases h : d.total = 0
      · have hU : hookUpd d = [] := by simp [hookUpd, h]
        rw [List.map_cons, List.flatten_cons, hU, List.nil_append]
        exact ih ys hy
      · have hU : hookUpd d = [[("progress", .prim (.int (clampVal d)))]] := by
          simp [hookUpd, h]
        rw [List.map_cons, List.flatten_cons, hU]
        show ProgBndP ([("progress", .prim (.int (clampVal d)))]
          :: ((ds.map hookUpd).flatten ++ ys))
        exact ProgBndP.move (clampVal d) _ _ rfl
          (le_trans (by decide) (clampVal_lb d))
          (le_trans (clampVal_ub d) (by decide)) (ih ys hy)

theorem pipe_progBnd (env : Env) (extra : List (List (String × Val)))
    (hextra : ∀ u ∈ extra, u = deleteUpd ∨ u = cleanupUpd) :
    ProgBndP (pipelineUpdates env ++ extra) := by
  have hdel : ProgBndP extra := progBnd_deletes extra hextra
  have herr : ∀ m c : String, ProgBndP (errorUpd m c :: extra) :=
    fun m c => ProgBndP.keep _ _ rfl hdel
  have hdone2 : ∀ (p : String) (m : List (String × Prim)),
      ProgBndP (doneUpd p m :: extra) :=
    fun p m => ProgBndP.move 100 _ _ rfl (by decide) (by decide) hdel
  obtain ⟨url, want, probe, checkSize, hooks, download, ensureSize, cv⟩ := env
  unfold pipelineUpdates
  cases url with
  | none => exact herr _ _
  | some u =>
      by_cases hw : want ∈ ALLOWED_FORMATS
      · rw [if_pos hw, List.cons_append]
        refine ProgBndP.move 5 _ _ rfl (by decide) (by decide) ?_
        cases probe with
        | error e => exact herr e e
        | ok meta =>
            rw [List.cons_append]
            refine ProgBndP.keep _ _ rfl ?_
            cases checkSize with
            | error e => exact herr e e
            | ok _ =>
                rw [List.cons_append]
                refine ProgBndP.move 15 _ _ rfl (by decide) (by decide) ?_
                rw [List.append_assoc]
                apply hooks_progBnd hooks
                cases download with
                | error e => exact herr e e
                | ok path =>
                    cases ensureSize with
                    | error e => exact herr e e
                    | ok _ =>
                        dsimp only
                        by_cases hs2 : want = "source"
                        · rw [if_pos hs2]
                          exact hdone2 path meta
                        · rw [if_neg hs2, List.cons_append]
                          refine ProgBndP.move
                            (if want = "mp4" ∨ want = "webm" ∨ want = "mkv"
                             then 95 else 92) _ _ rfl ?_ ?_ ?_
                          · split <;> decide
                          · split <;> decide
                          · cases cv with
                            | error e => exact herr e e
                            | ok fin => exact hdone2 fin meta
      · rw [if_neg hw]
        exact herr _ _

theorem pipe_progPath (env : Env) (extra : List (List (String × Val)))
    (hextra : ∀ u ∈ extra, u = deleteUpd ∨ u = cleanupUpd)
    (hmono : List.Chain' hookRatioLE (firedHooks env.hookEvents)) :
    ProgPathP 0 (pipelineUpdates env ++ extra) := by
  have hdel : ∀ q : Int, ProgPathP q extra := progPath_deletes extra hextra
  have herr : ∀ (q : Int) (m c : String), ProgPathP q (errorUpd m c :: extra) :=
    fun q m c => ProgPathP.keep q _ _ rfl (hdel q)
  have hdone2 : ∀ q : Int, q ≤ 100 →
      ∀ (p : String) (m : List (String × Prim)),
      ProgPathP q (doneUpd p m :: extra) :=
    fun q hq p m => ProgPathP.move q 100 _ _ rfl hq (hdel 100)
  obtain ⟨url, want, probe, checkSize, hooks, download, ensureSize, cv⟩ := env
  unfold pipelineUpdates
  cases url with
  | none => exact herr 0 _ _
  | some u =>
      by_cases hw : want ∈ ALLOWED_FORMATS
      · rw [if_pos hw, List.cons_append]
        refine ProgPathP.move 0 5 _ _ rfl (by decide) ?_
        cases probe with
        | error e => exact herr 5 e e
        | ok meta =>
            rw [List.cons_append]
            refine ProgPathP.keep 5 _ _ rfl ?_
            cases checkSize with
            | error e => exact herr 5 e e
            | ok _ =>
                rw [List.cons_append]
                refine ProgPathP.move 5 15 _ _ rfl (by decide) ?_
                rw [List.append_assoc]
                apply hooks_progPath hooks 15 _ (by decide) hmono ?_ ?_
                · intro d _
                  exact le_trans (by decide) (clampVal_lb d)
                · intro q hq
                  cases download with
                  | error e => exact herr q e e
                  | ok path =>
                      cases ensureSize with
                      | error e => exact herr q e e
                      | ok _ =>
                          dsimp only
                          by_cases hs2 : want = "source"
                          · rw [if_pos hs2]
                            exact hdone2 q (by omega) path meta
                          · rw [if_neg hs2, List.cons_append]
                            refine ProgPathP.move q
                              (if want = "mp4" ∨ want = "webm" ∨ want = "mkv"
                               then 95 else 92) _ _ rfl ?_ ?_
                            · split <;> omega
                            · cases cv with
                              | error e => exact herr _ e e
                              | ok fin =>
                                  apply hdone2 _ ?_ fin meta
                                  split <;> decide
      · rw [if_neg hw]
        exact herr 0 _ _

/-- C4 (amended).  First conjunct: the progress field of every observed
record — from creation up to and beyond a terminal state — is an integer
within 0–100, for every run.  Second conjunct: every value a download hook
writes lies in 20–90.  Third conjunct: whenever the completion ratios the
download reports to the hook are non-decreasing over the fired hook
invocations (no retry or multi-stream restart), the whole progress history
is non-decreasing.  (A retried download violates the ratio condition and
can lower progress, per the counterexample.) -/
theorem C4_progress_bounds_and_monotonicity :
    (∀ (env : Env) (jobId : String) (payload : Val) (t0 : Int)
        (tms : Nat → Int) (extra : List (List (String × Val))),
        (∀ u ∈ extra, u = deleteUpd ∨ u = cleanupUpd) →
        progBounds (lifeTrace env jobId payload t0 tms extra) = true)
  ∧ (∀ d : HookData, d.total ≠ 0 → 20 ≤ clampVal d ∧ clampVal d ≤ 90)
  ∧ (∀ (env : Env) (jobId : String) (payload : Val) (t0 : Int)
        (tms : Nat → Int) (extra : List (List (String × Val))),
        (∀ u ∈ extra, u = deleteUpd ∨ u = cleanupUpd) →
        List.Chain' hookRatioLE (firedHooks env.hookEvents) →
        progMono (lifeTrace env jobId payload t0 tms extra) = true) := by
  refine ⟨?_, ?_, ?_⟩
  · intro env jobId payload t0 tms extra hextra
    exact progBnd_chain jobId tms _ (pipe_progBnd env extra hextra)
      (initialRecord jobId payload t0) 0 0 rfl (by decide) (by decide)
  · intro d _
    exact ⟨clampVal_lb d, clampVal_ub d⟩
  · intro env jobId payload t0 tms extra hextra hmono
    exact progPath_chain jobId tms _ 0 (pipe_progPath env extra hextra hmono)
      (initialRecord jobId payload t0) 0 rfl

theorem C4_progress_bounds_and_monotonicity_witness :
    progBounds (lifeTrace envSrc "j" payload0 0 (fun _ => 0) []) = true
    ∧ progMono (lifeTrace envSrc "j" payload0 0 (fun _ => 0) []) = true :=
  ⟨C4_progress_bounds_and_monotonicity.1 envSrc "j" payload0 0 (fun _ => 0) []
     (fun u hu => absurd hu (List.not_mem_nil u)),
   C4_progress_bounds_and_monotonicity.2.2 envSrc "j" payload0 0 (fun _ => 0)
     [] (fun u hu => absurd hu (List.not_mem_nil u))
     (by rw [show firedHooks envSrc.hookEvents = [⟨1024, 512⟩] from rfl]
         exact List.chain'_singleton _)⟩

-- ## Cleanup sweeper (`cleanup.py`)

/-- A filesystem tree: files and directories with last-modified times. -/
inductive FSEntry where
  | file (name : String) (mtime : Int)
  | dir (name : String) (mtime : Int) (children : List FSEntry)

/-- Name of an entry. -/
def entryName : FSEntry → String
  | .file n _ => n
  | .dir n _ _ => n

mutual

/-- One sweep of `cleanup_expired_files` over an entry: `_iter_all_paths`
yields all descendants before the entry itself, so the children are swept
first; then the entry's own age is checked and, if `now - mtime > ttl`,
`delete_path` removes it — for a directory recursively, regardless of the
ages of whatever remains inside. -/
def sweepEntry (now ttl : Int) : FSEntry → Option FSEntry
  | .file n m => if ttl < now - m then none else some (.file n m)
  | .dir n m cs =>
      if ttl < now - m then none else some (.dir n m (sweepList now ttl cs))

/-- Sweep the children of a directory in order. -/
def sweepList (now ttl : Int) : List FSEntry → List FSEntry
  | [] => []
  | e :: es =>
      match sweepEntry now ttl e with
      | some e2 => e2 :: sweepList now ttl es
      | none => sweepList now ttl es

end

/-- Resolve a relative path (list of names) below a directory listing. -/
def findEntry : List FSEntry → List String → Option FSEntry
  | _, [] => none
  | es, [n] => es.find? (fun e => entryName e == n)
  | es, n :: rest =>
      match es.find? (fun e => entryName e == n) with
      | some (.dir _ _ cs) => findEntry cs rest
      | _ => none

mutual

/-- Real directory listings have distinct names per level. -/
def namesOKEntry : FSEntry → Bool
  | .file _ _ => true
  | .dir _ _ cs => namesOKList cs

def namesOKList : List FSEntry → Bool
  | [] => true
  | e :: es =>
      !(es.any (fun x => entryName x == entryName e))
        && namesOKEntry e && namesOKList es

end

/-- All directories along a path (excluding the final component) are not
older than the TTL. -/
def ancestorsFresh (now ttl : Int) : List FSEntry → List String → Prop
  | _, [] => True
  | _, [_] => True
  | es, n :: rest =>
      match es.find? (fun e => entryName e == n) with
      | some (.dir _ mt cs) =>
          ¬ ttl < now - mt ∧ ancestorsFresh now ttl cs rest
      | _ => True

theorem sweepEntry_name (now ttl : Int) (e e2 : FSEntry)
    (h : sweepEntry now ttl e = some e2) : entryName e2 = entryName e := by
  cases e with
  | file n m =>
      by_cases hc : ttl < now - m
      · simp [sweepEntry, hc] at h
      · simp only [sweepEntry, if_neg hc, Option.some.injEq] at h
        rw [← h]
  | dir n m cs =>
      by_cases hc : ttl < now - m
      · simp [sweepEntry, hc] at h
      · simp only [sweepEntry, if_neg hc, Option.some.injEq] at h
        rw [← h]
        rfl

theorem sweepList_mem_name (now ttl : Int) :
    ∀ (es : List FSEntry) (x : FSEntry), x ∈ sweepList now ttl es →
      ∃ y ∈ es, entryName y = entryName x := by
  intro es
  induction es with
  | nil => intro x hx; cases hx
  | cons e et ih =>
      intro x hx
      rw [show sweepList now ttl (e :: et)
        = (match sweepEntry now ttl e with
           | some e2 => e2 :: sweepList now ttl et
           | none => sweepList now ttl et) from rfl] at hx
      cases hse : sweepEntry now ttl e with
      | some e2 =>
          rw [hse] at hx
          rcases List.mem_cons.mp hx with h | h
          · exact ⟨e, List.mem_cons_self _ _,
              by rw [← sweepEntry_name now ttl e e2 hse, h]⟩
          · obtain ⟨y, hy, hn⟩ := ih x h
            exact ⟨y, List.mem_cons_of_mem _ hy, hn⟩
      | none =>
          rw [hse] at hx
          obtain ⟨y, hy, hn⟩ := ih x hx
          exact ⟨y, List.mem_cons_of_mem _ hy, hn⟩

theorem namesOKList_mem :
    ∀ (es : List FSEntry), namesOKList es = true →
      ∀ x ∈ es, namesOKEntry x = true := by
  intro es
  induction es with
  | nil => intro _ x hx; cases hx
  | cons e et ih =>
      intro h x hx
      rw [show namesOKList (e :: et)
        = (!(et.any (fun x => entryName x == entryName e))
            && namesOKEntry e && namesOKList et) from rfl] at h
      simp only [Bool.and_eq_true] at h
      rcases List.mem_cons.mp hx with h2 | h2
      · rw [h2]
        exact h.1.2
      · exact ih h.2 x h2

theorem find_sweepList (now ttl : Int) :
    ∀ (es : List FSEntry) (n : String), namesOKList es = true →
      (sweepList now ttl es).find? (fun e => entryName e == n)
        = (es.find? (fun e => entryName e == n)).bind
            (sweepEntry now ttl) := by
  intro es
  induction es with
  | nil => intro n _; rfl
  | cons e et ih =>
      intro n hok
      rw [show namesOKList (e :: et)
        = (!(et.any (fun x => entryName x == entryName e))
            && namesOKEntry e && namesOKList et) from rfl] at hok
      simp only [Bool.and_eq_true] at hok
      have hnodup := hok.1.1
      have hoket := hok.2
      rw [show sweepList now ttl (e :: et)
        = (match sweepEntry now ttl e with
           | some e2 => e2 :: sweepList now ttl et
           | none => sweepList now ttl et) from rfl]
      cases hn : (entryName e == n) with
      | true =>
          cases hse : sweepEntry now ttl e with
          | some e2 =>
              dsimp only
              have hname : (entryName e2 == n) = true := by
                rw [sweepEntry_name now ttl e e2 hse]
                exact hn
              rw [List.find?_cons_of_pos (p := fun e => entryName e == n)
                    _ hname,
                  List.find?_cons_of_pos (p := fun e => entryName e == n)
                    _ hn]
              rw [show ((some e).bind (sweepEntry now ttl) : Option FSEntry)
                = sweepEntry now ttl e from rfl, hse]
          | none =>
              dsimp only
              rw [List.find?_cons_of_pos (p := fun e => entryName e == n)
                    _ hn]
              rw [show ((some e).bind (sweepEntry now ttl) : Option FSEntry)
                = sweepEntry now ttl e from rfl, hse]
              apply List.find?_eq_none.mpr
              intro x hx
              obtain ⟨y, hy, hyname⟩ := sweepList_mem_name now ttl et x hx
              have hyne : (entryName y == entryName e) = false := by
                rw [Bool.eq_false_iff]
                intro hcontr
                have hany : (et.any fun x => entryName x == entryName e)
                    = true := List.any_eq_true.mpr ⟨y, hy, hcontr⟩
                rw [hany] at hnodup
                cases hnodup
              simp only [Bool.not_eq_true]
              rw [Bool.eq_false_iff]
              intro hxn
              apply Bool.eq_false_iff.mp hyne
              have h1 : entryName x = n := by simpa using hxn
              have h2 : entryName e = n := by simpa using hn
              rw [hyname, h1, h2]
              simp
      | false =>
          have hn2 : ¬ ((fun e => entryName e == n) e = true) := by
            simp [hn]
          cases hse : sweepEntry now ttl e with
          | some e2 =>
              dsimp only
              have hname : (entryName e2 == n) = false := by
                rw [sweepEntry_name now ttl e e2 hse]
                exact hn
              have hname2 : ¬ ((fun e => entryName e == n) e2 = true) := by
                simp [hname]
              rw [List.find?_cons_of_neg (p := fun e => entryName e == n)
                    _ hname2,
                  List.find?_cons_of_neg (p := fun e => entryName e == n)
                    _ hn2]
              exact ih n hoket
          | none =>
              dsimp only
              rw [List.find?_cons_of_neg (p := fun e => entryName e == n)
                    _ hn2]
              exact ih n hoket

theorem findEntry_single (es : List FSEntry) (n : String) :
    findEntry es [n] = es.find? (fun e => entryName e == n) := rfl

theorem findEntry_cons2 (es : List FSEntry) (n r2 : String)
    (rs : List String) :
    findEntry es (n :: r2 :: rs)
      = (match es.find? (fun e => entryName e == n) with
         | some (.dir _ _ cs) => findEntry cs (r2 :: rs)
         | _ => none) := rfl

theorem ancFresh_cons2 (now ttl : Int) (es : List FSEntry) (n r2 : String)
    (rs : List String) :
    ancestorsFresh now ttl es (n :: r2 :: rs)
      = (match es.find? (fun e => entryName e == n) with
         | some (.dir _ mt cs) =>
             ¬ ttl < now - mt ∧ ancestorsFresh now ttl cs (r2 :: rs)
         | _ => True) := rfl

theorem sweep_removes_old_file :
    ∀ (path : List String) (es : List FSEntry) (now ttl : Int) (n : String)
      (m : Int),
      namesOKList es = true → findEntry es path = some (.file n m) →
      ttl < now - m →
      findEntry (sweepList now ttl es) path = none := by
  intro path
  induction path with
  | nil => intro es now ttl n m _ hf _; cases hf
  | cons n1 rest ih =>
      intro es now ttl n m hok hf hold
      cases rest with
      | nil =>
          rw [findEntry_single] at hf
          rw [findEntry_single, find_sweepList now ttl es n1 hok, hf]
          show sweepEntry now ttl (.file n m) = none
          simp [sweepEntry, hold]
      | cons r2 rs =>
          rw [findEntry_cons2] at hf
          rw [findEntry_cons2, find_sweepList now ttl es n1 hok]
          cases hfd : es.find? (fun e => entryName e == n1) with
          | none =>
              rw [hfd] at hf
              cases hf
          | some e0 =>
              rw [hfd] at hf
              cases e0 with
              | file n0 m0 => cases hf
              | dir n0 m0 cs =>
                  dsimp only at hf ⊢
                  by_cases hdir : ttl < now - m0
                  · rw [show ((some (FSEntry.dir n0 m0 cs)).bind
                        (sweepEntry now ttl) : Option FSEntry) = none from
                      by simp [sweepEntry, hdir]]
                  · rw [show ((some (FSEntry.dir n0 m0 cs)).bind
                        (sweepEntry now ttl) : Option FSEntry)
                      = some (.dir n0 m0 (sweepList now ttl cs)) from
                      by simp [sweepEntry, hdir]]
                    have hokcs : namesOKList cs = true :=
                      namesOKList_mem es hok _ (List.mem_of_find?_eq_some hfd)
                    exact ih cs now ttl n m hokcs hf hold

theorem sweep_keeps_fresh_file :
    ∀ (path : List String) (es : List FSEntry) (now ttl : Int) (n : String)
      (m : Int),
      namesOKList es = true → findEntry es path = some (.file n m) →
      ¬ ttl < now - m → ancestorsFresh now ttl es path →
      findEntry (sweepList now ttl es) path = some (.file n m) := by
  intro path
  induction path with
  | nil => intro es now ttl n m _ hf _ _; cases hf
  | cons n1 rest ih =>
      intro es now ttl n m hok hf hfresh hanc
      cases rest with
      | nil =>
          rw [findEntry_single] at hf
          rw [findEntry_single, find_sweepList now ttl es n1 hok, hf]
          show sweepEntry now ttl (.file n m) = some (.file n m)
          simp [sweepEntry, hfresh]
      | cons r2 rs =>
          rw [findEntry_cons2] at hf
          rw [ancFresh_cons2] at hanc
          rw [findEntry_cons2, find_sweepList now ttl es n1 hok]
          cases hfd : es.find? (fun e => entryName e == n1) with
          | none =>
              rw [hfd] at hf
              cases hf
          | some e0 =>
              rw [hfd] at hf hanc
              cases e0 with
              | file n0 m0 => cases hf
              | dir n0 m0 cs =>
                  dsimp only at hf hanc ⊢
                  rw [show ((some (FSEntry.dir n0 m0 cs)).bind
                      (sweepEntry now ttl) : Option FSEntry)
                    = some (.dir n0 m0 (sweepList now ttl cs)) from
                    by simp [sweepEntry, hanc.1]]
                  have hokcs : namesOKList cs = true :=
                    namesOKList_mem es hok _ (List.mem_of_find?_eq_some hfd)
                  exact ih cs now ttl n m hokcs hf hfresh hanc.2

/-- An old directory (age 100 over a TTL of 10) holding a fresh file
(age 0). -/
def tree0 : List FSEntry := [.dir "d" (-100) [.file "f" 0]]

/-- C8 counterexample.  The fresh file `d/f` (age 0, within the TTL of 10)
is removed by the sweep anyway, because its enclosing directory is older
than the TTL and `delete_path` removes an expired directory recursively —
the claim's "regardless of the age of the directories containing it" fails
for the keep direction. -/
theorem C8_old_dir_removes_fresh_file :
    ((0 : Int) - 0 ≤ 10)
    ∧ findEntry tree0 ["d", "f"] = some (.file "f" 0)
    ∧ findEntry (sweepList 0 10 tree0) ["d", "f"] = none := by
  refine ⟨by decide, rfl, rfl⟩

/-- C8 (amended).  For distinct sibling names: a file older than the TTL
is removed by one sweep at any nesting depth regardless of directory ages
(first conjunct); a file within the TTL survives the sweep provided every
directory on its path is also within the TTL (second conjunct) — an
expired directory is deleted recursively together with the fresh files
inside it. -/
theorem C8_cleanup_sweep :
    (∀ (path : List String) (es : List FSEntry) (now ttl : Int) (n : String)
        (m : Int),
        namesOKList es = true → findEntry es path = some (.file n m) →
        ttl < now - m →
        findEntry (sweepList now ttl es) path = none)
  ∧ (∀ (path : List String) (es : List FSEntry) (now ttl : Int) (n : String)
        (m : Int),
        namesOKList es = true → findEntry es path = some (.file n m) →
        ¬ ttl < now - m → ancestorsFresh now ttl es path →
        findEntry (sweepList now ttl es) path = some (.file n m)) :=
  ⟨sweep_removes_old_file, sweep_keeps_fresh_file⟩

/-- A fresh directory holding a fresh file, next to an old file. -/
def tree1 : List FSEntry := [.dir "d" 0 [.file "f" 0], .file "g" (-50)]

theorem C8_cleanup_sweep_witness :
    findEntry (sweepList 0 10 tree1) ["g"] = none
    ∧ findEntry (sweepList 0 10 tree1) ["d", "f"] = some (.file "f" 0) :=
  ⟨C8_cleanup_sweep.1 ["g"] tree1 0 10 "g" (-50) (by decide) rfl (by decide),
   C8_cleanup_sweep.2 ["d", "f"] tree1 0 10 "f" 0 (by decide) rfl (by decide)
     ⟨by decide, trivial⟩⟩

-- ## Filename sanitisation (`paths.safe_filename`)

/-- Python `str.replace(pat, repl)` over character lists: scan left to
right, replacing non-overlapping occurrences.  (The callers only use
non-empty patterns; an empty pattern scans through unchanged.) -/
def pyReplace (pat repl : List Char) : List Char → List Char
  | [] => []
  | c :: cs =>
      if pat ≠ [] ∧ pat.isPrefixOf (c :: cs) then
        repl ++ pyReplace pat repl ((c :: cs).drop pat.length)
      else c :: pyReplace pat repl cs
  termination_by s => s.length
  decreasing_by
  · rename_i h
    simp only [List.length_drop, List.length_cons]
    have hp : 0 < pat.length := List.length_pos.mpr h.1
    omega
  · simp

/-- Python `pat in s` (substring test). -/
def containsSub (pat : List Char) : List Char → Bool
  | [] => pat.isEmpty
  | c :: cs => pat.isPrefixOf (c :: cs) || containsSub pat cs

/-- Python `str.strip(chars)`. -/
def pyStrip (chars : List Char) (s : List Char) : List Char :=
  ((s.dropWhile (fun c => chars.contains c)).reverse.dropWhile
    (fun c => chars.contains c)).reverse

/-- The loop `while ".." in sanitized: sanitized = sanitized.replace("..",
"_")`; each iteration with an occurrence strictly shortens the string, so
`length + 1` fuel always reaches the loop's exit condition. -/
def ddLoop : Nat → List Char → List Char
  | 0, s => s
  | fuel + 1, s =>
      if containsSub ['.', '.'] s then
        ddLoop fuel (pyReplace ['.', '.'] ['_'] s)
      else s

/-- The character class kept by `SAFE_FILENAME_RE`
(`[^\w\-. ()Ѐ-ӿ]` is replaced): word characters per the
word-character predicate `isW` (Unicode-aware in Python), dash, dot,
space, parentheses and the Cyrillic block. -/
def keepChar (isW : Char → Bool) (c : Char) : Bool :=
  isW c || c == '-' || c == '.' || c == ' ' || c == '(' || c == ')'
    || (decide (0x400 ≤ c.toNat) && decide (c.toNat ≤ 0x4FF))

/-- `paths.safe_filename`, parameterised by the word-character predicate
of Python's `\w`. -/
def safe_filename (isW : Char → Bool) (name : Option (List Char))
    (fallback : List Char) : List Char :=
  let name2 := match name with
    | none => fallback
    | some [] => fallback
    | some s => s
  let s1 := name2.map (fun c => if keepChar isW c then c else '_')
  let s2 := ddLoop (s1.length + 1) s1
  let s3 := pyReplace ['_', '_'] ['_'] s2
  let s4 := pyStrip [' ', '.', '_'] s3
  if s4.isEmpty then fallback else s4

theorem pyReplace_mem (pat repl : List Char) :
    ∀ (s : List Char) (x : Char), x ∈ pyReplace pat repl s →
      x ∈ repl ∨ x ∈ s := by
  intro s
  induction s using pyReplace.induct pat repl with
  | case1 => intro x hx; rw [pyReplace] at hx; cases hx
  | case2 c cs h ih =>
      intro x hx
      rw [pyReplace, if_pos h] at hx
      rcases List.mem_append.mp hx with h1 | h1
      · exact Or.inl h1
      · rcases ih x h1 with h2 | h2
        · exact Or.inl h2
        · exact Or.inr (List.drop_subset _ _ h2)
  | case3 c cs h ih =>
      intro x hx
      rw [pyReplace, if_neg h] at hx
      rcases List.mem_cons.mp hx with h1 | h1
      · exact Or.inr (h1 ▸ List.mem_cons_self _ _)
      · rcases ih x h1 with h2 | h2
        · exact Or.inl h2
        · exact Or.inr (List.mem_cons_of_mem _ h2)

theorem pyReplace_length_le (pat repl : List Char)
    (hle : repl.length ≤ pat.length) :
    ∀ s : List Char, (pyReplace pat repl s).length ≤ s.length := by
  intro s
  induction s using pyReplace.induct pat repl with
  | case1 => rw [pyReplace]
  | case2 c cs h ih =>
      rw [pyReplace, if_pos h]
      have hplen : pat.length ≤ (c :: cs).length :=
        (List.isPrefixOf_iff_prefix.mp h.2).length_le
      simp only [List.length_append, List.length_drop,
        List.length_cons] at ih ⊢
      simp only [List.length_cons] at hplen
      omega
  | case3 c cs h ih =>
      rw [pyReplace, if_neg h]
      simp only [List.length_cons]
      omega

theorem pyReplace_length_lt (pat repl : List Char)
    (hlt : repl.length < pat.length) :
    ∀ s : List Char, containsSub pat s = true →
      (pyReplace pat repl s).length < s.length := by
  intro s
  induction s using pyReplace.induct pat repl with
  | case1 =>
      intro hc
      rw [show containsSub pat [] = pat.isEmpty from rfl] at hc
      rw [List.isEmpty_iff] at hc
      rw [hc] at hlt
      simp at hlt
  | case2 c cs h _ =>
      intro _
      rw [pyReplace, if_pos h]
      have hplen : pat.length ≤ (c :: cs).length :=
        (List.isPrefixOf_iff_prefix.mp h.2).length_le
      have hrec := pyReplace_length_le pat repl (le_of_lt hlt)
        ((c :: cs).drop pat.length)
      simp only [List.length_append, List.length_drop,
        List.length_cons] at hrec ⊢
      simp only [List.length_cons] at hplen
      omega
  | case3 c cs h ih =>
      intro hc
      have hpne : pat ≠ [] := by
        intro he
        rw [he] at hlt
        simp at hlt
      have hpre : pat.isPrefixOf (c :: cs) = false := by
        rw [Bool.eq_false_iff]
        intro hcontr
        exact h ⟨hpne, hcontr⟩
      rw [show containsSub pat (c :: cs)
        = (pat.isPrefixOf (c :: cs) || containsSub pat cs) from rfl,
        hpre] at hc
      simp only [Bool.false_or] at hc
      rw [pyReplace, if_neg h]
      simp only [List.length_cons]
      have := ih hc
      omega

theorem containsSub_nil_pat : ∀ y : List Char, containsSub [] y = true := by
  intro y
  cases y with
  | nil => rfl
  | cons c cs =>
      rw [show containsSub [] (c :: cs)
        = (List.isPrefixOf [] (c :: cs) || containsSub [] cs) from rfl]
      rw [show List.isPrefixOf ([] : List Char) (c :: cs) = true from rfl]
      rfl

theorem isPrefixOf_append (p : List Char) :
    ∀ (l y : List Char), p.isPrefixOf l = true →
      p.isPrefixOf (l ++ y) = true := by
  induction p with
  | nil =>
      intro l y _
      cases hly : l ++ y with
      | nil => rfl
      | cons a as => rfl
  | cons a as ih =>
      intro l y hp
      cases l with
      | nil => cases hp
      | cons b bs =>
          rw [show List.isPrefixOf (a :: as) (b :: bs)
            = ((a == b) && as.isPrefixOf bs) from rfl] at hp
          simp only [Bool.and_eq_true] at hp
          rw [List.cons_append]
          rw [show List.isPrefixOf (a :: as) (b :: (bs ++ y))
            = ((a == b) && as.isPrefixOf (bs ++ y)) from rfl]
          simp only [Bool.and_eq_true]
          exact ⟨hp.1, ih bs y hp.2⟩

theorem containsSub_append_right (pat : List Char) :
    ∀ (x y : List Char), containsSub pat x = true →
      containsSub pat (x ++ y) = true := by
  intro x
  induction x with
  | nil =>
      intro y hc
      rw [show containsSub pat [] = pat.isEmpty from rfl,
        List.isEmpty_iff] at hc
      rw [hc]
      exact containsSub_nil_pat _
  | cons c cs ih =>
      intro y hc
      rw [show containsSub pat (c :: cs)
        = (pat.isPrefixOf (c :: cs) || containsSub pat cs) from rfl] at hc
      rw [List.cons_append,
        show containsSub pat (c :: (cs ++ y))
        = (pat.isPrefixOf (c :: (cs ++ y)) || containsSub pat (cs ++ y))
        from rfl]
      rcases Bool.or_eq_true_iff.mp hc with h | h
      · rw [show (c :: (cs ++ y)) = (c :: cs) ++ y from rfl]
        rw [isPrefixOf_append pat (c :: cs) y h]
        rfl
      · rw [ih y h]
        simp
  

theorem containsSub_append_left (pat : List Char) :
    ∀ (pre t : List Char), containsSub pat t = true →
      containsSub pat (pre ++ t) = true := by
  intro pre
  induction pre with
  | nil => intro t h; exact h
  | cons c cs ih =>
      intro t h
      rw [List.cons_append,
        show containsSub pat (c :: (cs ++ t))
        = (pat.isPrefixOf (c :: (cs ++ t)) || containsSub pat (cs ++ t))
        from rfl, ih t h]
      simp

theorem containsSub_of_part (pat l s : List Char) (hinf : l <:+: s)
    (hc : containsSub pat l = true) : containsSub pat s = true := by
  obtain ⟨pre, post, rfl⟩ := hinf
  rw [List.append_assoc]
  exact containsSub_append_left pat pre _
    (containsSub_append_right pat l post hc)

theorem ddLoop_no_dots :
    ∀ (fuel : Nat) (s : List Char), s.length < fuel →
      containsSub ['.', '.'] (ddLoop fuel s) = false := by
  intro fuel
  induction fuel with
  | zero => intro s hs; omega
  | succ n ih =>
      intro s hs
      by_cases h : containsSub ['.', '.'] s = true
      · rw [show ddLoop (n + 1) s
          = ddLoop n (pyReplace ['.', '.'] ['_'] s) from by
            simp [ddLoop, h]]
        have hlt := pyReplace_length_lt ['.', '.'] ['_'] (by decide) s h
        exact ih _ (by omega)
      · rw [show ddLoop (n + 1) s = s from by simp [ddLoop, h]]
        exact Bool.eq_false_iff.mpr h

theorem ddLoop_mem :
    ∀ (fuel : Nat) (s : List Char) (x : Char), x ∈ ddLoop fuel s →
      x = '_' ∨ x ∈ s := by
  intro fuel
  induction fuel with
  | zero => intro s x hx; exact Or.inr hx
  | succ n ih =>
      intro s x hx
      by_cases h : containsSub ['.', '.'] s = true
      · rw [show ddLoop (n + 1) s
          = ddLoop n (pyReplace ['.', '.'] ['_'] s) from by
            simp [ddLoop, h]] at hx
        rcases ih _ x hx with h1 | h1
        · exact Or.inl h1
        · rcases pyReplace_mem _ _ _ x h1 with h2 | h2
          · exact Or.inl (List.mem_singleton.mp h2)
          · exact Or.inr h2
      · rw [show ddLoop (n + 1) s = s from by simp [ddLoop, h]] at hx
        exact Or.inr hx

theorem pyReplace_uu_head (s : List Char) (c : Char)
    (h : (pyReplace ['_', '_'] ['_'] s).head? = some c) :
    c = '_' ∨ s.head? = some c := by
  cases s with
  | nil =>
      rw [pyReplace] at h
      cases h
  | cons a as =>
      rw [pyReplace] at h
      by_cases hp : (['_', '_'] : List Char) ≠ []
          ∧ List.isPrefixOf ['_', '_'] (a :: as) = true
      · rw [if_pos hp] at h
        exact Or.inl (Option.some.inj h).symm
      · rw [if_neg hp] at h
        exact Or.inr ((Option.some.inj h) ▸ rfl)

theorem pyReplace_uu_no_dots :
    ∀ s : List Char, containsSub ['.', '.'] s = false →
      containsSub ['.', '.'] (pyReplace ['_', '_'] ['_'] s) = false := by
  intro s
  induction s using pyReplace.induct ['_', '_'] ['_'] with
  | case1 =>
      intro _
      rw [pyReplace]
      rfl
  | case2 c cs h ih =>
      intro hno
      rw [pyReplace, if_pos h]
      rw [show (['_', '_'] : List Char).length = 2 from rfl] at ih ⊢
      have hdropno : containsSub ['.', '.'] ((c :: cs).drop 2) = false := by
        rw [Bool.eq_false_iff]
        intro hcontr
        have := containsSub_of_part ['.', '.'] _ _
          (List.IsSuffix.isInfix (List.drop_suffix 2 (c :: cs))) hcontr
        rw [this] at hno
        cases hno
      rw [show (['_'] ++ pyReplace ['_', '_'] ['_'] ((c :: cs).drop 2)
        : List Char)
        = '_' :: pyReplace ['_', '_'] ['_'] ((c :: cs).drop 2) from rfl]
      rw [show containsSub ['.', '.']
          ('_' :: pyReplace ['_', '_'] ['_'] ((c :: cs).drop 2))
        = (List.isPrefixOf ['.', '.']
            ('_' :: pyReplace ['_', '_'] ['_'] ((c :: cs).drop 2))
           || containsSub ['.', '.']
                (pyReplace ['_', '_'] ['_'] ((c :: cs).drop 2))) from rfl]
      rw [ih hdropno]
      rw [show List.isPrefixOf ['.', '.']
          ('_' :: pyReplace ['_', '_'] ['_'] ((c :: cs).drop 2))
        = (('.' == '_')
            && List.isPrefixOf ['.']
                 (pyReplace ['_', '_'] ['_'] ((c :: cs).drop 2))) from rfl]
      simp
  | case3 c cs h ih =>
      intro hno
      rw [show containsSub ['.', '.'] (c :: cs)
        = (List.isPrefixOf ['.', '.'] (c :: cs)
           || containsSub ['.', '.'] cs) from rfl] at hno
      simp only [Bool.or_eq_false_iff] at hno
      rw [pyReplace, if_neg h]
      rw [show containsSub ['.', '.'] (c :: pyReplace ['_', '_'] ['_'] cs)
        = (List.isPrefixOf ['.', '.'] (c :: pyReplace ['_', '_'] ['_'] cs)
           || containsSub ['.', '.'] (pyReplace ['_', '_'] ['_'] cs))
        from rfl]
      rw [ih hno.2]
      rw [show List.isPrefixOf ['.', '.'] (c :: pyReplace ['_', '_'] ['_'] cs)
        = (('.' == c) && List.isPrefixOf ['.'] (pyReplace ['_', '_'] ['_'] cs))
        from rfl]
      simp only [Bool.or_false, Bool.and_eq_false_iff]
      by_cases hc : ('.' == c) = true
      · right
        rw [Bool.eq_false_iff]
        intro hcontr
        have hhead : (pyReplace ['_', '_'] ['_'] cs).head? = some '.' := by
          cases hrep : pyReplace ['_', '_'] ['_'] cs with
          | nil => rw [hrep] at hcontr; cases hcontr
          | cons r rs =>
              rw [hrep] at hcontr
              rw [show List.isPrefixOf ['.'] (r :: rs)
                = (('.' == r) && true) from by
                  rw [show List.isPrefixOf ['.'] (r :: rs)
                    = (('.' == r) && List.isPrefixOf [] rs) from rfl]
                  simp] at hcontr
              simp only [Bool.and_true, beq_iff_eq] at hcontr
              rw [← hcontr]
              rfl
        rcases pyReplace_uu_head cs '.' hhead with h2 | h2
        · cases h2
        · -- then the original string already contained "..": contradiction
          have hpre2 : List.isPrefixOf ['.', '.'] (c :: cs) = true := by
            cases hcs : cs with
            | nil => rw [hcs] at h2; cases h2
            | cons d ds =>
                rw [hcs] at h2
                have hd : d = '.' := Option.some.inj h2
                rw [show List.isPrefixOf ['.', '.'] (c :: d :: ds)
                  = (('.' == c) && (('.' == d) && List.isPrefixOf [] ds))
                  from rfl]
                simp [hc, hd]
          exact absurd hpre2 (Bool.eq_false_iff.mp hno.1)
      · left
        exact Bool.eq_false_iff.mpr hc

theorem pyStrip_part (chars s : List Char) : pyStrip chars s <:+: s := by
  unfold pyStrip
  have h1 : s.dropWhile (fun c => chars.contains c) <:+ s :=
    List.dropWhile_suffix _
  have h2 : (s.dropWhile (fun c => chars.contains c)).reverse.dropWhile
      (fun c => chars.contains c)
      <:+ (s.dropWhile (fun c => chars.contains c)).reverse :=
    List.dropWhile_suffix _
  have h3 := List.reverse_prefix.mpr h2
  rw [List.reverse_reverse] at h3
  exact h3.isInfix.trans h1.isInfix

theorem sanitize_no_bad_chars (s1 : List Char)
    (hs1 : ∀ x ∈ s1, x ≠ '/' ∧ x ≠ '\\') :
    ∀ x ∈ pyStrip [' ', '.', '_'] (pyReplace ['_', '_'] ['_']
        (ddLoop (s1.length + 1) s1)), x ≠ '/' ∧ x ≠ '\\' := by
  intro x hx
  have hx3 : x ∈ pyReplace ['_', '_'] ['_'] (ddLoop (s1.length + 1) s1) :=
    List.IsInfix.mem hx (pyStrip_part _ _)
  rcases pyReplace_mem _ _ _ x hx3 with h | h
  · rw [List.mem_singleton.mp h]
    exact ⟨by decide, by decide⟩
  · rcases ddLoop_mem _ _ x h with h2 | h2
    · rw [h2]
      exact ⟨by decide, by decide⟩
    · exact hs1 x h2

theorem sanitize_no_dots (s1 : List Char) :
    containsSub ['.', '.'] (pyStrip [' ', '.', '_'] (pyReplace ['_', '_']
      ['_'] (ddLoop (s1.length + 1) s1))) = false := by
  have h2 : containsSub ['.', '.'] (ddLoop (s1.length + 1) s1) = false :=
    ddLoop_no_dots _ s1 (Nat.lt_succ_self _)
  have h3 : containsSub ['.', '.'] (pyReplace ['_', '_'] ['_']
      (ddLoop (s1.length + 1) s1)) = false :=
    pyReplace_uu_no_dots _ h2
  rw [Bool.eq_false_iff]
  intro hcontr
  have := containsSub_of_part ['.', '.'] _ _ (pyStrip_part _ _) hcontr
  rw [this] at h3
  cases h3

/-- C10.  For every word-character predicate under which the path
separators are not word characters (true of Python's `\w`), and every
input (including `None`), `safe_filename` with the default fallback
`"file"` returns a non-empty name containing no `/`, no `\`, and no `..`
substring: every character outside the kept class is replaced by an
underscore, the `..` collapsing loop removes every `..`, the `__` and
strip passes cannot reintroduce one, and an empty sanitisation result
falls back to `"file"`. -/
theorem C10_safe_filename_safety :
    ∀ (isW : Char → Bool) (name : Option (List Char)),
      isW '/' = false → isW '\\' = false →
      safe_filename isW name ['f', 'i', 'l', 'e'] ≠ []
      ∧ '/' ∉ safe_filename isW name ['f', 'i', 'l', 'e']
      ∧ '\\' ∉ safe_filename isW name ['f', 'i', 'l', 'e']
      ∧ containsSub ['.', '.'] (safe_filename isW name ['f', 'i', 'l', 'e'])
          = false := by
  intro isW name hW1 hW2
  have hk1 : keepChar isW '/' = false := by
    unfold keepChar
    rw [hW1]
    decide
  have hk2 : keepChar isW '\\' = false := by
    unfold keepChar
    rw [hW2]
    decide
  have main : ∀ (c : Char) (rest : List Char),
      safe_filename isW (some (c :: rest)) ['f', 'i', 'l', 'e'] ≠ []
      ∧ '/' ∉ safe_filename isW (some (c :: rest)) ['f', 'i', 'l', 'e']
      ∧ '\\' ∉ safe_filename isW (some (c :: rest)) ['f', 'i', 'l', 'e']
      ∧ containsSub ['.', '.']
          (safe_filename isW (some (c :: rest)) ['f', 'i', 'l', 'e'])
          = false := by
    intro c rest
    have hs1 : ∀ x ∈ (c :: rest).map
        (fun ch => if keepChar isW ch then ch else '_'),
        x ≠ '/' ∧ x ≠ '\\' := by
      intro x hx
      rcases List.mem_map.mp hx with ⟨ch, _, hch⟩
      by_cases hkeep : keepChar isW ch = true
      · rw [if_pos hkeep] at hch
        constructor
        · intro he
          rw [he] at hch
          rw [hch] at hkeep
          rw [hk1] at hkeep
          cases hkeep
        · intro he
          rw [he] at hch
          rw [hch] at hkeep
          rw [hk2] at hkeep
          cases hkeep
      · rw [if_neg hkeep] at hch
        rw [← hch]
        exact ⟨by decide, by decide⟩
    unfold safe_filename
    dsimp only
    by_cases hemp : (pyStrip [' ', '.', '_'] (pyReplace ['_', '_'] ['_']
        (ddLoop (((c :: rest).map
          (fun ch => if keepChar isW ch then ch else '_')).length + 1)
          ((c :: rest).map
            (fun ch => if keepChar isW ch then ch else '_'))))).isEmpty
        = true
    · rw [if_pos hemp]
      refine ⟨by decide, by decide, by decide, by decide⟩
    · rw [if_neg hemp]
      refine ⟨?_, ?_, ?_, sanitize_no_dots _⟩
      · intro he
        rw [he] at hemp
        exact hemp rfl
      · intro hmem
        exact (sanitize_no_bad_chars _ hs1 '/' hmem).1 rfl
      · intro hmem
        exact (sanitize_no_bad_chars _ hs1 '\\' hmem).2 rfl
  cases name with
  | none => exact main 'f' ['i', 'l', 'e']
  | some s =>
      cases s with
      | nil => exact main 'f' ['i', 'l', 'e']
      | cons c rest => exact main c rest

/-- An ASCII approximation of the word-character class, used only to
instantiate the safety theorem at a concrete input. -/
def asciiWord : Char → Bool := fun c => c.isAlphanum || c == '_'

theorem C10_safe_filename_safety_witness :
    safe_filename asciiWord
        (some ['b', 'a', 'd', '/', '.', '.', '/', 'n', 'a', 'm', 'e'])
        ['f', 'i', 'l', 'e'] ≠ []
    ∧ '/' ∉ safe_filename asciiWord
        (some ['b', 'a', 'd', '/', '.', '.', '/', 'n', 'a', 'm', 'e'])
        ['f', 'i', 'l', 'e']
    ∧ '\\' ∉ safe_filename asciiWord
        (some ['b', 'a', 'd', '/', '.', '.', '/', 'n', 'a', 'm', 'e'])
        ['f', 'i', 'l', 'e']
    ∧ containsSub ['.', '.'] (safe_filename asciiWord
        (some ['b', 'a', 'd', '/', '.', '.', '/', 'n', 'a', 'm', 'e'])
        ['f', 'i', 'l', 'e']) = false :=
  C10_safe_filename_safety asciiWord
    (some ['b', 'a', 'd', '/', '.', '.', '/', 'n', 'a', 'm', 'e'])
    (by decide) (by decide)

-- ## Pointer model of `MemoryBackend.get` (shallow copy, `jobs_memory.py`)

/-- A Python value slot: an immutable scalar or a reference to a dict
object on the heap.  (CPython stores references; `dict(job)` copies the
top-level slots but shares what they reference.) -/
inductive PVal where
  | prim (p : Prim)
  | ref (a : Nat)
  deriving DecidableEq, Repr

/-- The object heap: addresses to dict objects, plus the next fresh
address. -/
structure Heap where
  objs : Nat → Option (List (String × PVal))
  next : Nat

/-- The memory backend in the pointer model: the heap and the `jobs`
mapping from job id to the address of its record dict. -/
structure PMem where
  heap : Heap
  jobs : String → Option Nat

/-- Python dict lookup. -/
def assocGet (d : List (String × PVal)) (k : String) : Option PVal :=
  (d.find? (fun kv => kv.1 == k)).map (fun kv => kv.2)

/-- Python dict assignment `d[k] = v`. -/
def assocSet : List (String × PVal) → String → PVal → List (String × PVal)
  | [], k, v => [(k, v)]
  | (k2, v2) :: rest, k, v =>
      if k2 == k then (k, v) :: rest else (k2, v2) :: assocSet rest k v

/-- `MemoryBackend.get` in the pointer model: `dict(job)` allocates a new
top-level dict whose entries carry the same value references (a shallow
copy) and returns its fresh address; an unknown id returns `None` and
leaves the memory untouched. -/
def pGet (m : PMem) (jobId : String) : Option Nat × PMem :=
  match m.jobs jobId with
  | none => (none, m)
  | some a =>
      let entries := (m.heap.objs a).getD []
      let fresh := m.heap.next
      (some fresh,
       { m with heap :=
           { objs := fun b => if b = fresh then some entries
                              else m.heap.objs b,
             next := fresh + 1 } })

/-- Mutate one top-level key of the dict object at address `a`
(`d[k] = v`). -/
def setField (m : PMem) (a : Nat) (k : String) (v : PVal) : PMem :=
  { m with heap :=
      { m.heap with objs := fun b =>
          if b = a then some (assocSet ((m.heap.objs a).getD []) k v)
          else m.heap.objs b } }

/-- Mutate a nested dict through a top-level reference of the dict at `a`
(`d[k1][k2] = v`). -/
def setNested (m : PMem) (a : Nat) (k1 k2 : String) (v : PVal) :
    Option PMem :=
  match assocGet ((m.heap.objs a).getD []) k1 with
  | some (.ref b) => some (setField m b k2 v)
  | _ => none

/-- Read `store[jobId][k1][k2]` through the heap. -/
def readStoredNested (m : PMem) (jobId k1 k2 : String) : Option PVal :=
  match m.jobs jobId with
  | none => none
  | some a =>
      match assocGet ((m.heap.objs a).getD []) k1 with
      | some (.ref b) => assocGet ((m.heap.objs b).getD []) k2
      | _ => none

/-- A store holding one job `"j"`: object 0 is the payload dict, object 1
the record dict referencing it. -/
def pMem0 : PMem :=
  { heap :=
      { objs := fun b =>
          if b = 0 then some [("url", .prim (.str "original"))]
          else if b = 1 then
            some [("job_id", .prim (.str "j")), ("payload", .ref 0)]
          else none,
        next := 2 },
    jobs := fun id => if id = "j" then some 1 else none }

/-- C6 counterexample.  `MemoryBackend.get` returns `dict(job)` — a
shallow copy.  Mutating the nested `payload` dict through the returned
copy (address 2) changes the stored record's `payload.url` from
`"original"` to `"mutated"`: the snapshot guarantee fails for nested
structures. -/
theorem C6_shallow_copy_leaks_nested_mutation :
    (pGet pMem0 "j").1 = some 2
    ∧ readStoredNested pMem0 "j" "payload" "url"
        = some (.prim (.str "original"))
    ∧ (setNested (pGet pMem0 "j").2 2 "payload" "url"
        (.prim (.str "mutated"))).map
          (fun m2 => readStoredNested m2 "j" "payload" "url")
        = some (some (.prim (.str "mutated"))) := by
  refine ⟨rfl, rfl, rfl⟩

/-- C6 (amended).  The read itself does not modify stored state: after
`get`, the `jobs` table is unchanged and every address other than the
freshly allocated copy holds the same object.  And the copy is top-level
deep: mutating a top-level key of the returned dict leaves the stored
record object unchanged.  (Nested dicts such as `payload`, `meta` and
`result` are shared, per the counterexample; the RQ backend's JSON
round-trip is free of this aliasing.) -/
theorem C6_get_shallow_snapshot :
    (∀ (m : PMem) (jobId : String),
        (pGet m jobId).2.jobs = m.jobs
        ∧ (∀ b, b ≠ m.heap.next →
            (pGet m jobId).2.heap.objs b = m.heap.objs b))
  ∧ (∀ (m : PMem) (jobId : String) (a : Nat),
        m.jobs jobId = some a → a < m.heap.next →
        ∀ (f : Nat) (m2 : PMem), pGet m jobId = (some f, m2) →
        ∀ (k : String) (v : PVal),
          (setField m2 f k v).heap.objs a = m.heap.objs a
          ∧ (setField m2 f k v).jobs jobId = some a) := by
  constructor
  · intro m jobId
    cases hj : m.jobs jobId with
    | none =>
        constructor
        · simp [pGet, hj]
        · intro b _
          simp [pGet, hj]
    | some a =>
        constructor
        · simp [pGet, hj]
        · intro b hb
          simp [pGet, hj, hb]
  · intro m jobId a hj ha f m2 hget k v
    have hm2 : f = m.heap.next
        ∧ m2 = { m with heap :=
            { objs := fun b => if b = m.heap.next
                then some ((m.heap.objs a).getD [])
                else m.heap.objs b,
              next := m.heap.next + 1 } } := by
      simp only [pGet, hj] at hget
      cases hget
      exact ⟨rfl, rfl⟩
    obtain ⟨hf, hm2e⟩ := hm2
    have hne : ¬ a = m.heap.next := by omega
    rw [hm2e, hf]
    constructor
    · simp [setField, hne]
    · simp [setField, hj]

theorem C6_get_shallow_snapshot_witness :
    (pGet pMem0 "j").2.jobs = pMem0.jobs
    ∧ (setField (pGet pMem0 "j").2 2 "quality"
        (.prim (.str "480p"))).heap.objs 1 = pMem0.heap.objs 1
    ∧ (setField (pGet pMem0 "j").2 2 "quality"
        (.prim (.str "480p"))).jobs "j" = some 1 := by
  refine ⟨(C6_get_shallow_snapshot.1 pMem0 "j").1, ?_, ?_⟩
  · exact (C6_get_shallow_snapshot.2 pMem0 "j" 1 rfl (by decide) 2
      (pGet pMem0 "j").2 rfl "quality" (.prim (.str "480p"))).1
  · exact (C6_get_shallow_snapshot.2 pMem0 "j" 1 rfl (by decide) 2
      (pGet pMem0 "j").2 rfl "quality" (.prim (.str "480p"))).2
